import Mathlib

/-!
Verification development for the endpoint-discovery engine of
`epscrapper.py` (Endpoint-Scrapper).  The Python source is shallowly
embedded: pure helpers become Lean functions over `String`/`List Char`,
the Playwright browser session is abstracted as explicit data (page DOM
snapshots, network request records, a web map from URL to page), and the
stateful crawl loop becomes a fuel-indexed recursive function returning
its endpoint list together with ghost outputs (visit order, final
visited set) used only by specifications.

Python library functions used by the source (`urllib.parse.urlparse`,
`urllib.parse.urljoin`, `str.split`, `str.strip`, `in` substring tests)
are modelled faithfully after their CPython implementations, restricted
to the behaviour exercised here (the rarely-relevant `params` component
of `urlparse` is folded into the path).  The one exception urlparse can
raise on the inputs seen here — `ValueError("Invalid IPv6 URL")` for a
netloc with unbalanced brackets — is modelled explicitly where a claim
concerns error behaviour (`normalize_originE` below) and collapsed in
`pyUrlparseD` itself, whose other uses range over bracket-free URLs
(browser page URLs, well-formed origins), where CPython never raises.
-/

/-! ## Character-list helpers (models of Python string primitives) -/

/-- Longest prefix of `l` whose characters all fail `p`, together with the
remainder (which starts with the first character satisfying `p`, if any). -/
def spanUntil (p : Char → Bool) : List Char → List Char × List Char
  | [] => ([], [])
  | c :: cs =>
    if p c then ([], c :: cs)
    else
      let r := spanUntil p cs
      (c :: r.1, r.2)

/-- Model of Python `str.split(sep, 1)` for a one-character separator:
the part before the first occurrence of `t`, and the part after it
(empty when `t` does not occur). -/
def splitOnceL (t : Char) (l : List Char) : List Char × List Char :=
  let r := spanUntil (fun c => c == t) l
  (r.1, r.2.drop 1)

/-- Model of Python `str.split(sep)` for a one-character separator. -/
def splitAllL (t : Char) : List Char → List (List Char)
  | [] => [[]]
  | c :: cs =>
    if c == t then [] :: splitAllL t cs
    else
      match splitAllL t cs with
      | [] => [[c]]
      | h :: rest => (c :: h) :: rest

/-- Model of Python `sep.join(parts)` for a one-character separator. -/
def joinWithChar (t : Char) : List (List Char) → List Char
  | [] => []
  | [x] => x
  | x :: rest => x ++ t :: joinWithChar t rest

/-- Does `l` start with the characters of `pre`?  Model of `str.startswith`. -/
def listStarts : List Char → List Char → Bool
  | [], _ => true
  | _ :: _, [] => false
  | a :: as, b :: bs => a == b && listStarts as bs

/-- Model of the Python substring test `needle in hay`. -/
def containsSub (needle : List Char) : List Char → Bool
  | [] => listStarts needle []
  | c :: cs => listStarts needle (c :: cs) || containsSub needle cs

/-- Model of Python `str.startswith` on `String`. -/
def strStarts (pre s : String) : Bool := listStarts pre.data s.data

/-- Characters stripped by Python `str.strip()`. -/
def pyIsSpace (c : Char) : Bool :=
  c == ' ' || c == '\t' || c == '\n' || c == '\r' || c == '\x0b' || c == '\x0c'

/-- Model of Python `str.strip()`. -/
def pyStrip (s : String) : String :=
  String.mk (((s.data.dropWhile pyIsSpace).reverse.dropWhile pyIsSpace).reverse)

/-- Model of Python `str.lower()` (ASCII case folding suffices here). -/
def lowerS (s : String) : String := String.mk (s.data.map Char.toLower)

/-! ## Model of `urllib.parse` -/

/-- Result of `urlparse` (the `params` component is folded into `path`). -/
structure UrlParts where
  scheme : String
  netloc : String
  path : String
  query : String
  fragment : String
deriving DecidableEq, Repr

/-- Characters admissible in a URL scheme (CPython `scheme_chars`). -/
def schemeChars : List Char :=
  "abcdefghijklmnopqrstuvwxyzABCDEFGHIJKLMNOPQRSTUVWXYZ0123456789+-.".data

/-- Does a candidate scheme pass CPython urlsplit's guard: nonempty, first
character an ASCII letter, all characters in `schemeChars`? -/
def validSchemeL (l : List Char) : Bool :=
  match l with
  | [] => false
  | c :: _ => c.isAlpha && l.all (fun d => schemeChars.contains d)

/-- CPython urlsplit scheme extraction: split at the first `:` when the part
before it is a syntactically valid scheme; the scheme is lowercased. -/
def splitSchemeL (l : List Char) : List Char × List Char :=
  let r := spanUntil (fun c => c == ':') l
  match r.2 with
  | [] => ([], l)
  | _ :: after =>
    if validSchemeL r.1 then (r.1.map Char.toLower, after) else ([], l)

/-- Characters ending the netloc component in CPython urlsplit. -/
def netlocDelim (c : Char) : Bool := c == '/' || c == '?' || c == '#'

/-- CPython urlsplit netloc extraction: after a leading `//`, the netloc
runs up to the next `/`, `?` or `#`. -/
def splitNetlocL : List Char → List Char × List Char
  | '/' :: '/' :: rest => spanUntil netlocDelim rest
  | l => ([], l)

/-- Model of `urllib.parse.urlparse(url, scheme=dflt)`. -/
def pyUrlparseD (dflt : String) (url : String) : UrlParts :=
  let s := splitSchemeL url.data
  let scheme := if s.1 = [] then dflt.data else s.1
  let n := splitNetlocL s.2
  let f := splitOnceL '#' n.2
  let q := splitOnceL '?' f.1
  ⟨String.mk scheme, String.mk n.1, String.mk q.1, String.mk q.2, String.mk f.2⟩

/-- Model of `urllib.parse.urlparse(url)`. -/
def pyUrlparse (url : String) : UrlParts := pyUrlparseD "" url

/-- Schemes treated as relative-capable by CPython `urljoin`. -/
def usesRelative : List String :=
  ["", "ftp", "http", "gopher", "nntp", "imap", "wais", "file", "https",
   "shttp", "mms", "prospero", "rtsp", "rtspu", "sftp", "svn", "svn+ssh",
   "ws", "wss"]

/-- Schemes with a netloc component per CPython `urljoin`. -/
def usesNetloc : List String :=
  ["", "ftp", "http", "gopher", "nntp", "telnet", "imap", "wais", "file",
   "mms", "https", "shttp", "snews", "prospero", "rtsp", "rtspu", "rsync",
   "svn", "svn+ssh", "sftp", "nfs", "git", "git+ssh", "ws", "wss"]

/-- Does the string start with character `c`?  Model of `s[:1] == c`. -/
def headIs (c : Char) (s : String) : Bool :=
  match s.data with
  | x :: _ => x == c
  | [] => false

/-- Does the string start with `//`?  Model of `s[:2] == '//'`. -/
def headIs2Slash (s : String) : Bool :=
  match s.data with
  | x :: y :: _ => x == '/' && y == '/'
  | _ => false

/-- Model of `urllib.parse.urlunsplit`. -/
def pyUrlunsplit (p : UrlParts) : String :=
  let u1 :=
    if p.netloc ≠ "" ∨ (p.path ≠ "" ∧ headIs2Slash p.path) then
      (let u0 := if p.path ≠ "" ∧ ¬ headIs '/' p.path then "/" ++ p.path else p.path
       "//" ++ p.netloc ++ u0)
    else p.path
  let u2 := if p.scheme ≠ "" then p.scheme ++ ":" ++ u1 else u1
  let u3 := if p.query ≠ "" then u2 ++ "?" ++ p.query else u2
  if p.fragment ≠ "" then u3 ++ "#" ++ p.fragment else u3

/-- Filter empty segments, keeping the final one: tail of CPython's
`segments[1:-1] = filter(None, segments[1:-1])`. -/
def filterKeepLast : List (List Char) → List (List Char)
  | [] => []
  | [a] => [a]
  | a :: rest => if a = [] then filterKeepLast rest else a :: filterKeepLast rest

/-- CPython `segments[1:-1] = filter(None, segments[1:-1])`: drop empty
segments except in the first and last positions. -/
def filterInterior : List (List Char) → List (List Char)
  | [] => []
  | [a] => [a]
  | a :: rest => a :: filterKeepLast rest

/-- CPython urljoin `.`/`..` segment resolution (popping on `..`,
dropping `.`). -/
def resolveDots (acc : List (List Char)) : List (List Char) → List (List Char)
  | [] => acc
  | s :: rest =>
    if s = "..".data then resolveDots acc.dropLast rest
    else if s = ".".data then resolveDots acc rest
    else resolveDots (acc ++ [s]) rest

/-- Model of `urllib.parse.urljoin(base, url)` after CPython, with the
`params` component folded into the path. -/
def pyUrljoin (base url : String) : String :=
  if base = "" then url
  else if url = "" then base
  else
    let b := pyUrlparse base
    let u := pyUrlparseD b.scheme url
    if u.scheme ≠ b.scheme ∨ ¬ usesRelative.contains u.scheme then url
    else
      let inUN := usesNetloc.contains u.scheme
      if inUN ∧ u.netloc ≠ "" then
        pyUrlunsplit ⟨u.scheme, u.netloc, u.path, u.query, u.fragment⟩
      else
        let netloc := if inUN then b.netloc else u.netloc
        if u.path = "" then
          let query := if u.query = "" then b.query else u.query
          pyUrlunsplit ⟨u.scheme, netloc, b.path, query, u.fragment⟩
        else
          let baseParts0 := splitAllL '/' b.path.data
          let baseParts :=
            if baseParts0.getLastD [] ≠ [] then baseParts0.dropLast else baseParts0
          let segments :=
            if headIs '/' u.path then splitAllL '/' u.path.data
            else filterInterior (baseParts ++ splitAllL '/' u.path.data)
          let resolved := resolveDots [] segments
          let resolved2 :=
            if segments.getLastD [] = ".".data ∨ segments.getLastD [] = "..".data
            then resolved ++ [[]] else resolved
          let joined := joinWithChar '/' resolved2
          let path := if joined = [] then "/" else String.mk joined
          pyUrlunsplit ⟨u.scheme, netloc, path, u.query, u.fragment⟩

/-! ## Origin Matcher (source lines 22-34) -/

/-- Embedding of `normalize_origin` (epscrapper.py line 22). -/
def normalize_origin (url : String) : String :=
  let u := if containsSub "://".data url.data then url else "https://" ++ url
  let p := pyUrlparse u
  (if p.scheme = "" then "https" else p.scheme) ++ "://" ++
    (if p.netloc = "" then p.path else p.netloc)

/-- Embedding of `is_same_origin` (epscrapper.py line 26). -/
def is_same_origin (u1 u2 : String) : Bool :=
  (pyUrlparse u1).scheme == (pyUrlparse u2).scheme &&
    (pyUrlparse u1).netloc == (pyUrlparse u2).netloc

/-- API marker substrings checked by `guess_api_like`. -/
def apiMarkers : List String := ["/api/", "/v1/", "/graphql", "/rest/"]

/-- Embedding of `guess_api_like` (epscrapper.py line 29). -/
def guess_api_like (resource_type url : String) : Bool :=
  let rt := lowerS resource_type
  if ["xhr", "fetch", "document"].contains rt then true
  else
    let path := lowerS (pyUrlparse url).path
    apiMarkers.any (fun k => containsSub k.data path.data)

/-! ## Data model -/

/-- One discovered endpoint: the dict appended to `endpoints` in the source.
DOM-discovered entries carry only `url` and `source`; network entries also
carry the resource type and HTTP method (absent keys become `none`). -/
structure Endpoint where
  url : String
  source : String
  type : Option String := none
  method : Option String := none
deriving DecidableEq, Repr

/-- A rendered DOM element: tag name plus attribute/value pairs. -/
structure DomElem where
  tag : String
  attrs : List (String × String)
deriving DecidableEq, Repr

/-- A page as the Page Harvester sees it: its current URL and the DOM
before and after the scroll probe (lazy loading may add nodes). -/
structure PageModel where
  url : String
  dom1 : List DomElem
  dom2 : List DomElem

/-- Playwright's view of one completed network request. -/
structure NetRequest where
  url : String
  resource_type : String
  method : String
deriving DecidableEq, Repr

/-- An open browser page as the Session Locator sees it (only its URL). -/
structure PageView where
  url : String
deriving DecidableEq, Repr

/-- A set-listing function models Python `list(s)` for a set `s` built by
insertions: its output is SOME ordering of the distinct inserted elements
(Python set iteration order is unspecified). -/
def SetListing (σ : List String → List String) : Prop :=
  ∀ l : List String, (σ l).Perm l.dedup

/-! ## Session Locator (source lines 36-46)

The polling loop is embedded over the finite sequence of page-list
snapshots it would observe, one per 0.5-second poll round before the
deadline; real time is abstracted into the length of that sequence. -/

/-- The match test of `wait_for_dashboard` line 43, including the line 41
skip of pages with an empty URL. -/
def pageMatches (expected_url : String) (pg : PageView) : Bool :=
  pg.url ≠ "" &&
    (is_same_origin pg.url (normalize_origin expected_url) ||
     strStarts expected_url pg.url)

/-- Embedding of `wait_for_dashboard` (epscrapper.py line 36): scan each
poll round's open pages in order, return the first match, and raise
`TimeoutError` mentioning the expected origin once the rounds (the
deadline) are exhausted. -/
def wait_for_dashboard (expected_url : String) :
    List (List PageView) → Except String PageView
  | [] => .error ("Timed out waiting for dashboard at " ++
      normalize_origin expected_url)
  | round :: rest =>
    match round.find? (pageMatches expected_url) with
    | some pg => .ok pg
    | none => wait_for_dashboard expected_url rest

/-! ## Page Harvester (source lines 48-106) -/

/-- The (tag, attribute) pairs scanned by `collect_dom_links`. -/
def selAttrs : List (String × String) :=
  [("a", "href"), ("link", "href"), ("script", "src"), ("img", "src"),
   ("img", "srcset"), ("iframe", "src"), ("source", "src"), ("video", "src"),
   ("audio", "src"), ("form", "action"), ("embed", "src")]

/-- Model of `page.query_selector_all(f"{tag}[{attr}]")`: elements with the
given tag carrying the given attribute, in DOM order. -/
def querySelAll (dom : List DomElem) (tag attr : String) : List DomElem :=
  dom.filter (fun e => e.tag == tag && e.attrs.any (fun p => p.1 == attr))

/-- Model of `el.get_attribute(attr)`. -/
def getAttr (e : DomElem) (a : String) : Option String :=
  (e.attrs.find? (fun p => p.1 == a)).map (fun p => p.2)

/-- The candidate URLs extracted from one attribute value: the value
itself, except that a `srcset` value is split on commas and only the
first whitespace-delimited token of each stripped candidate is kept
(source lines 78-80). -/
def candidatesOf (attr val : String) : List String :=
  if attr == "srcset" then
    (splitAllL ',' val.data).filterMap (fun v =>
      let v2 := pyStrip (String.mk v)
      if v2 = "" then none
      else some (String.mk ((splitAllL ' ' v2.data).headD [])))
  else [val]

/-- Body of the innermost loop of `collect_dom_links` (source lines
81-88): resolve one candidate, apply the same-origin filter, record the
endpoint, and add same-origin anchors to the crawl-link set (modelled as
an insertion-ordered duplicate-free list). -/
def processCandidate (pageUrl baseOrigin : String) (so : Bool) (tag : String)
    (st : List Endpoint × List String) (candidate : String) :
    List Endpoint × List String :=
  let full := pyUrljoin pageUrl candidate
  if so && !(is_same_origin full baseOrigin) then st
  else
    (st.1 ++ [{ url := full, source := "dom" }],
     if tag == "a" && is_same_origin full baseOrigin then
       (if full ∈ st.2 then st.2 else st.2 ++ [full])
     else st.2)

/-- Body of the per-element loop of `collect_dom_links` (source lines
74-80): read the attribute, skip empty values, process each candidate. -/
def processElem (pageUrl baseOrigin : String) (so : Bool) (tag attr : String)
    (st : List Endpoint × List String) (e : DomElem) :
    List Endpoint × List String :=
  match getAttr e attr with
  | none => st
  | some val =>
    if val = "" then st
    else (candidatesOf attr val).foldl (processCandidate pageUrl baseOrigin so tag) st

/-- Embedding of `collect_dom_links` (epscrapper.py line 48).  The crawl
links are accumulated as a Python set; `σ` models the unspecified
iteration order of `list(crawl_links)` at line 89. -/
def collect_dom_links (σ : List String → List String) (pageUrl : String)
    (dom : List DomElem) (baseOrigin : String) (so : Bool) :
    List Endpoint × List String :=
  let st := selAttrs.foldl (fun st ta =>
    (querySelAll dom ta.1 ta.2).foldl
      (processElem pageUrl baseOrigin so ta.1 ta.2) st) ([], [])
  (st.1, σ st.2)

/-- Embedding of `scrape_current_page` (epscrapper.py line 92): harvest,
scroll (modelled by the second DOM snapshot), harvest again, and union
the results (`extend` for endpoints, membership-filtered `extend` for
links, source lines 104-105). -/
def scrape_current_page (σ : List String → List String) (pg : PageModel)
    (baseOrigin : String) (so : Bool) : List Endpoint × List String :=
  let r1 := collect_dom_links σ pg.url pg.dom1 baseOrigin so
  let r2 := collect_dom_links σ pg.url pg.dom2 baseOrigin so
  (r1.1 ++ r2.1,
   r2.2.foldl (fun acc l => if l ∈ acc then acc else acc ++ [l]) r1.2)

/-! ## Network Capture (source lines 202-218) -/

/-- Embedding of the `on_request` callback (epscrapper.py line 202):
`none` models an ignored event, `some ep` the endpoint appended. -/
def on_request (same_origin include_static : Bool) (base_origin : String)
    (req : NetRequest) : Option Endpoint :=
  if same_origin && !(is_same_origin req.url base_origin) then none
  else if !include_static && !(guess_api_like req.resource_type req.url) then none
  else some { url := req.url, source := "network",
              type := some req.resource_type, method := some req.method }

/-! ## Crawl Coordinator (source lines 225-244)

The crawl loop is embedded with explicit fuel (`none` = fuel exhausted
before the queue emptied).  Besides the endpoint list it returns two
ghost outputs used only by specifications: the order in which URLs were
dequeued and marked visited, and the final visited set (as the list the
`visited` Python set grew into, newest first). -/

/-- The pages of the web the crawl can reach: `none` models a page whose
navigation raises (the `except` at line 241 skips it). -/
def Web := String → Option PageModel

/-- Source lines 238-240: append each harvested link to the queue unless
it is already visited or already queued (the queue grows while the loop
runs, so later duplicates in `links` see earlier appends). -/
def enqueueLinks (visited queue links : List String) : List String :=
  links.foldl (fun q l => if l ∈ visited ∨ l ∈ q then q else q ++ [l]) queue

/-- Embedding of the `while queue:` loop (epscrapper.py lines 228-244). -/
def crawl_loop (σ : List String → List String) (web : Web)
    (baseOrigin : String) (so : Bool) :
    Nat → List String → List String → List Endpoint → List String →
    Option (List Endpoint × List String × List String)
  | 0, visited, queue, eps, order =>
    if queue = [] then some (eps, order, visited) else none
  | fuel + 1, visited, queue, eps, order =>
    match queue with
    | [] => some (eps, order, visited)
    | url :: rest =>
      if url ∈ visited then crawl_loop σ web baseOrigin so fuel visited rest eps order
      else
        match web url with
        | none =>
          crawl_loop σ web baseOrigin so fuel (url :: visited) rest eps (order ++ [url])
        | some pg =>
          let r := scrape_current_page σ pg baseOrigin so
          crawl_loop σ web baseOrigin so fuel (url :: visited)
            (enqueueLinks (url :: visited) rest r.2) (eps ++ r.1) (order ++ [url])

/-- Embedding of the crawl setup (epscrapper.py lines 226-227):
`visited = {dashboard_url}`, `queue = [l for l in crawl_links if l not in visited]`. -/
def run_crawl (σ : List String → List String) (web : Web)
    (baseOrigin : String) (so : Bool) (dashboard_url : String)
    (crawl_links : List String) (fuel : Nat) :
    Option (List Endpoint × List String × List String) :=
  crawl_loop σ web baseOrigin so fuel [dashboard_url]
    (crawl_links.filter (fun l => decide (l ∉ [dashboard_url]))) [] []

/-- The crawl links one visited URL contributes (empty when navigation
fails). -/
def crawl_links_of (σ : List String → List String) (web : Web)
    (baseOrigin : String) (so : Bool) (u : String) : List String :=
  match web u with
  | none => []
  | some pg => (scrape_current_page σ pg baseOrigin so).2

/-- URLs reachable from the seed links through harvested crawl links,
never stepping through the dashboard URL (which the crawl never visits,
its links being the seeds themselves). -/
inductive Reaches (σ : List String → List String) (web : Web)
    (baseOrigin : String) (so : Bool) (dashboard_url : String)
    (seeds : List String) : String → Prop
  | seed (s : String) : s ∈ seeds → Reaches σ web baseOrigin so dashboard_url seeds s
  | step (u l : String) : Reaches σ web baseOrigin so dashboard_url seeds u →
      u ≠ dashboard_url → l ∈ crawl_links_of σ web baseOrigin so u →
      Reaches σ web baseOrigin so dashboard_url seeds l

/-! ## Aggregator (source lines 248-253) -/

/-- The dedup loop with its `seen` set of URLs. -/
def dedupe_aux (seen : List String) : List Endpoint → List Endpoint
  | [] => []
  | ep :: rest =>
    if ep.url ∈ seen then dedupe_aux seen rest
    else ep :: dedupe_aux (ep.url :: seen) rest

/-- Embedding of the aggregation loop (epscrapper.py lines 248-253):
keep the first endpoint per distinct URL, in discovery order. -/
def dedupe (endpoints : List Endpoint) : List Endpoint := dedupe_aux [] endpoints

/-! ## Order of operations in `run_scraper` (source lines 175-246)

A straight-line trace abstraction of `run_scraper`: each constructor is
one externally visible step, in program order. -/

/-- One step of `run_scraper`. -/
inductive ScrapeAction where
  | goto (url : String)
  | waitForDash
  | promptEnter
  | attachCapture
  | harvestDashboard
  | crawlPages
  | closeContext
deriving DecidableEq, Repr

/-- The order of operations of `run_scraper` (epscrapper.py lines
189-246): navigate (to the login URL and wait for the dashboard, or
directly to the dashboard), prompt for Enter, attach the network-capture
subscription (line 218), harvest the dashboard (line 221), optionally
crawl (lines 225-244), close the context. -/
def run_scraper_trace (login : Option String) (dashboard_url : String)
    (crawl : Bool) : List ScrapeAction :=
  (match login with
   | some l => [.goto l, .waitForDash]
   | none => [.goto dashboard_url]) ++
  [.promptEnter, .attachCapture, .harvestDashboard] ++
  (if crawl then [.crawlPages] else []) ++
  [.closeContext]

/-- Action `a` occurs strictly before action `b` in trace `t`. -/
def beforeIn (a b : ScrapeAction) (t : List ScrapeAction) : Prop :=
  ∃ i j, i < j ∧ t.get? i = some a ∧ t.get? j = some b

/-! ## Aggregated run result (crawl disabled), for the DOM/static-filter
interaction: network events (delivered by the capture callback) and the
dashboard DOM harvest feed one endpoint list which is deduplicated.
`netBefore`/`netAfter` are the captured requests that happen to be
appended before/after the DOM batch (the interleaving is unspecified). -/
def run_endpoints_nocrawl (σ : List String → List String)
    (netBefore netAfter : List NetRequest) (dash : PageModel)
    (baseOrigin : String) (same_origin include_static : Bool) :
    List Endpoint :=
  dedupe (netBefore.filterMap (on_request same_origin include_static baseOrigin) ++
    (scrape_current_page σ dash baseOrigin same_origin).1 ++
    netAfter.filterMap (on_request same_origin include_static baseOrigin))

/-! ## Lemmas about the Aggregator -/

lemma dedupe_aux_sublist (seen : List String) (l : List Endpoint) :
    (dedupe_aux seen l).Sublist l := by
  induction l generalizing seen with
  | nil => simp [dedupe_aux]
  | cons ep rest ih =>
    by_cases h : ep.url ∈ seen
    · simp only [dedupe_aux, if_pos h]
      exact (ih seen).cons ep
    · simp only [dedupe_aux, if_neg h]
      exact (ih (ep.url :: seen)).cons₂ ep

lemma dedupe_aux_mem (seen : List String) (l : List Endpoint) :
    ∀ e ∈ dedupe_aux seen l, e.url ∉ seen ∧
      l.find? (fun x => x.url == e.url) = some e := by
  induction l generalizing seen with
  | nil => simp [dedupe_aux]
  | cons ep rest ih =>
    by_cases h : ep.url ∈ seen
    · simp only [dedupe_aux, if_pos h]
      intro e he
      obtain ⟨hseen, hfind⟩ := ih seen e he
      refine ⟨hseen, ?_⟩
      have hne : (ep.url == e.url) = false := by
        simp only [beq_eq_false_iff_ne, ne_eq]
        intro hcontra
        exact hseen (hcontra ▸ h)
      simp [List.find?, hne, hfind]
    · simp only [dedupe_aux, if_neg h]
      intro e he
      rcases List.mem_cons.mp he with he | he
      · subst he
        exact ⟨h, by simp [List.find?]⟩
      · obtain ⟨hseen, hfind⟩ := ih (ep.url :: seen) e he
        have hne : (ep.url == e.url) = false := by
          simp only [beq_eq_false_iff_ne, ne_eq]
          intro hcontra
          exact hseen (by simp [hcontra])
        refine ⟨fun hc => hseen (List.mem_cons_of_mem _ hc), ?_⟩
        simp [List.find?, hne, hfind]

lemma dedupe_aux_nodup (seen : List String) (l : List Endpoint) :
    ((dedupe_aux seen l).map Endpoint.url).Nodup := by
  induction l generalizing seen with
  | nil => simp [dedupe_aux]
  | cons ep rest ih =>
    by_cases h : ep.url ∈ seen
    · simpa only [dedupe_aux, if_pos h] using ih seen
    · simp only [dedupe_aux, if_neg h, List.map_cons, List.nodup_cons]
      refine ⟨?_, ih (ep.url :: seen)⟩
      intro hmem
      obtain ⟨e, he, heq⟩ := List.mem_map.mp hmem
      exact (dedupe_aux_mem _ _ e he).1 (by simp [heq])

lemma dedupe_aux_idem (seen : List String) (l : List Endpoint) :
    dedupe_aux seen (dedupe_aux seen l) = dedupe_aux seen l := by
  induction l generalizing seen with
  | nil => simp [dedupe_aux]
  | cons ep rest ih =>
    by_cases h : ep.url ∈ seen
    · simp only [dedupe_aux, if_pos h]
      exact ih seen
    · simp only [dedupe_aux, if_neg h]
      rw [ih (ep.url :: seen)]

/-- Claim C3: the Aggregator keeps at most one endpoint per distinct URL;
each kept endpoint is the first occurrence of its URL in the input with
its full original record; the output is a subsequence of the input
(first-occurrence discovery order); and the Aggregator is idempotent on
its own output. -/
theorem c3_aggregator_dedup (l : List Endpoint) :
    ((dedupe l).map Endpoint.url).Nodup ∧
    (∀ e ∈ dedupe l, l.find? (fun x => x.url == e.url) = some e) ∧
    (dedupe l).Sublist l ∧
    dedupe (dedupe l) = dedupe l := by
  refine ⟨dedupe_aux_nodup [] l, ?_, dedupe_aux_sublist [] l, dedupe_aux_idem [] l⟩
  intro e he
  exact (dedupe_aux_mem [] l e he).2

/-! ## Network Capture claims -/

/-- Claim C6: when `include_static` is false, the capture callback emits an
endpoint for a processed request only if `guess_api_like` holds for it,
i.e. only if its (case-folded) resource type is one of xhr/fetch/document
or its (case-folded) URL path contains one of the API marker substrings
`/api/`, `/v1/`, `/graphql`, `/rest/`; every other network request is
dropped. -/
theorem c6_static_filter (so : Bool) (base : String) (req : NetRequest)
    (ep : Endpoint) (h : on_request so false base req = some ep) :
    guess_api_like req.resource_type req.url = true ∧
    (lowerS req.resource_type ∈ (["xhr", "fetch", "document"] : List String) ∨
     ∃ k ∈ apiMarkers,
       containsSub k.data (lowerS (pyUrlparse req.url).path).data = true) := by
  have hg : guess_api_like req.resource_type req.url = true := by
    by_contra hng
    have hng' : guess_api_like req.resource_type req.url = false :=
      Bool.eq_false_iff.mpr hng
    unfold on_request at h
    split at h
    · exact Option.noConfusion h
    · split at h
      · exact Option.noConfusion h
      · rename_i hcond
        exact hcond (by simp [hng'])
  refine ⟨hg, ?_⟩
  unfold guess_api_like at hg
  by_cases hrt : (["xhr", "fetch", "document"] : List String).contains
      (lowerS req.resource_type) = true
  · left
    exact List.elem_iff.mp hrt
  · right
    rw [if_neg hrt] at hg
    obtain ⟨k, hk, hck⟩ := List.any_eq_true.mp hg
    exact ⟨k, hk, hck⟩

/-- Witness for C6 at a concrete xhr request. -/
theorem c6_static_filter_witness :
    guess_api_like "xhr" "https://app.example.com/data" = true ∧
    (lowerS "xhr" ∈ (["xhr", "fetch", "document"] : List String) ∨
     ∃ k ∈ apiMarkers,
       containsSub k.data
         (lowerS (pyUrlparse "https://app.example.com/data").path).data = true) :=
  c6_static_filter false "https://app.example.com"
    ⟨"https://app.example.com/data", "xhr", "GET"⟩
    ⟨"https://app.example.com/data", "network", some "xhr", some "GET"⟩
    (by decide)

/-! ## Temporal ordering of capture attachment (claim C1) -/

/-- Claim C1 counterexample: in a run with no login flow, the navigation to
the dashboard URL (line 196 in the source) happens strictly before the
network-capture subscription is attached (line 218), so the subscription
is NOT attached before the dashboard navigation and the requests issued
by that navigation are not delivered to the callback. -/
theorem c1_counterexample :
    ((run_scraper_trace none "https://app.example.com/home" true).indexOf
        (ScrapeAction.goto "https://app.example.com/home") <
      (run_scraper_trace none "https://app.example.com/home" true).indexOf
        ScrapeAction.attachCapture) ∧
    ¬ ((run_scraper_trace none "https://app.example.com/home" true).indexOf
        ScrapeAction.attachCapture <
      (run_scraper_trace none "https://app.example.com/home" true).indexOf
        (ScrapeAction.goto "https://app.example.com/home")) := by
  decide

/-- Claim C1 (amended): the network-capture subscription is attached only
after the dashboard is reached (in the no-login mode, strictly after the
`goto` of the dashboard URL) and after the Enter prompt, but before the
dashboard DOM harvest and before any crawl navigation; so crawl-page
traffic is delivered to the callback while requests issued during login
and the initial dashboard navigation may be missed. -/
theorem c1_capture_attach_order (login : Option String)
    (dashboard_url : String) (crawl : Bool) :
    beforeIn .attachCapture .harvestDashboard
      (run_scraper_trace login dashboard_url crawl) ∧
    (crawl = true → beforeIn .attachCapture .crawlPages
      (run_scraper_trace login dashboard_url crawl)) ∧
    (login = none → beforeIn (.goto dashboard_url) .attachCapture
      (run_scraper_trace login dashboard_url crawl)) := by
  cases login with
  | none =>
    cases crawl with
    | false =>
      exact ⟨⟨2, 3, by omega, rfl, rfl⟩, fun h => absurd h (by decide),
        fun _ => ⟨0, 2, by omega, rfl, rfl⟩⟩
    | true =>
      exact ⟨⟨2, 3, by omega, rfl, rfl⟩, fun _ => ⟨2, 4, by omega, rfl, rfl⟩,
        fun _ => ⟨0, 2, by omega, rfl, rfl⟩⟩
  | some l =>
    cases crawl with
    | false =>
      exact ⟨⟨3, 4, by omega, rfl, rfl⟩, fun h => absurd h (by decide),
        fun h => Option.noConfusion h⟩
    | true =>
      exact ⟨⟨3, 4, by omega, rfl, rfl⟩, fun _ => ⟨3, 5, by omega, rfl, rfl⟩,
        fun h => Option.noConfusion h⟩

/-- Witness for the amended C1 at a concrete no-login crawl run. -/
theorem c1_capture_attach_order_witness :
    beforeIn .attachCapture .harvestDashboard
      (run_scraper_trace none "https://app.example.com/home" true) ∧
    beforeIn .attachCapture .crawlPages
      (run_scraper_trace none "https://app.example.com/home" true) ∧
    beforeIn (.goto "https://app.example.com/home") .attachCapture
      (run_scraper_trace none "https://app.example.com/home" true) := by
  obtain ⟨h1, h2, h3⟩ :=
    c1_capture_attach_order none "https://app.example.com/home" true
  exact ⟨h1, h2 rfl, h3 rfl⟩

/-! ## String and parser lemmas -/

lemma str_ext (a b : String) (h : a.data = b.data) : a = b := by
  cases a; cases b; exact congrArg String.mk h

lemma str_data_append (a b : String) : (a ++ b).data = a.data ++ b.data := by
  cases a; cases b; rfl

lemma str_mk_data (a : String) : String.mk a.data = a := by
  cases a; rfl

lemma spanUntil_clean (p : Char → Bool) :
    ∀ l : List Char, (∀ c ∈ l, p c = false) → spanUntil p l = (l, []) := by
  intro l
  induction l with
  | nil => intro _; rfl
  | cons c cs ih =>
    intro h
    have hc : p c = false := h c (List.mem_cons_self c cs)
    simp only [spanUntil, hc, Bool.false_eq_true, if_false]
    rw [ih (fun d hd => h d (List.mem_cons_of_mem c hd))]

lemma spanUntil_clean_hit (p : Char → Bool) (l : List Char) (d : Char)
    (r : List Char) (hl : ∀ c ∈ l, p c = false) (hd : p d = true) :
    spanUntil p (l ++ d :: r) = (l, d :: r) := by
  induction l with
  | nil => simp [spanUntil, hd]
  | cons c cs ih =>
    have hc : p c = false := hl c (List.mem_cons_self c cs)
    have ih2 := ih (fun x hx => hl x (List.mem_cons_of_mem c hx))
    simp only [List.cons_append, spanUntil, hc, Bool.false_eq_true, if_false,
      List.append_eq]
    rw [ih2]

lemma listStarts_self (n : List Char) : ∀ r, listStarts n (n ++ r) = true := by
  induction n with
  | nil => intro r; rfl
  | cons c cs ih => intro r; simp [listStarts, ih r]

lemma listStarts_mem (n h : List Char) (hs : listStarts n h = true) :
    ∀ c ∈ n, c ∈ h := by
  induction n generalizing h with
  | nil => simp
  | cons a as ih =>
    cases h with
    | nil => simp [listStarts] at hs
    | cons b bs =>
      simp only [listStarts, Bool.and_eq_true, beq_iff_eq] at hs
      intro c hc
      rcases List.mem_cons.mp hc with rfl | hc
      · exact hs.1 ▸ List.mem_cons_self b bs
      · exact List.mem_cons_of_mem b (ih bs hs.2 c hc)

lemma containsSub_mem (n h : List Char) (hc : containsSub n h = true) :
    ∀ c ∈ n, c ∈ h := by
  induction h with
  | nil =>
    cases n with
    | nil => simp
    | cons a as => simp [containsSub, listStarts] at hc
  | cons b bs ih =>
    simp only [containsSub, Bool.or_eq_true] at hc
    rcases hc with hc | hc
    · exact listStarts_mem n (b :: bs) hc
    · exact fun c hcn => List.mem_cons_of_mem b (ih hc c hcn)

lemma containsSub_suffix (n m : List Char) (h : containsSub n m = true) :
    ∀ l : List Char, containsSub n (l ++ m) = true := by
  intro l
  induction l with
  | nil => simpa using h
  | cons c cs ih =>
    cases n with
    | nil => simp [containsSub, listStarts]
    | cons a as => simp [containsSub, ih]

lemma containsSub_sep (a b : List Char) :
    containsSub "://".data (a ++ ':' :: '/' :: '/' :: b) = true := by
  apply containsSub_suffix
  have h3 : "://".data = [':', '/', '/'] := rfl
  rw [h3]
  simp [containsSub, listStarts]

lemma validScheme_no_colon (l : List Char) (h : validSchemeL l = true) :
    ∀ c ∈ l, (c == ':') = false := by
  intro c hc
  cases l with
  | nil => simp [validSchemeL] at h
  | cons a as =>
    simp only [validSchemeL, Bool.and_eq_true, List.all_eq_true] at h
    have hmem : schemeChars.contains c = true := h.2 c hc
    have hcs : c ∈ schemeChars := List.elem_iff.mp hmem
    rw [beq_eq_false_iff_ne]
    intro hcolon
    subst hcolon
    exact (by decide : (':' : Char) ∉ schemeChars) hcs

lemma validScheme_ne_nil (l : List Char) (h : validSchemeL l = true) : l ≠ [] := by
  intro hnil
  subst hnil
  simp [validSchemeL] at h

lemma splitScheme_inv (s : List Char) (rest : List Char)
    (hs : validSchemeL s = true) (hlow : s.map Char.toLower = s) :
    splitSchemeL (s ++ ':' :: rest) = (s, rest) := by
  simp only [splitSchemeL]
  rw [spanUntil_clean_hit (fun c => c == ':') s ':' rest
    (validScheme_no_colon s hs) (by decide)]
  simp [hs, hlow]

lemma splitNetloc_inv (n tail : List Char)
    (hn : ∀ c ∈ n, netlocDelim c = false)
    (ht : tail = [] ∨ ∃ d r, tail = d :: r ∧ netlocDelim d = true) :
    splitNetlocL ('/' :: '/' :: (n ++ tail)) = (n, tail) := by
  have : splitNetlocL ('/' :: '/' :: (n ++ tail)) = spanUntil netlocDelim (n ++ tail) := rfl
  rw [this]
  rcases ht with rfl | ⟨d, r, rfl, hd⟩
  · rw [List.append_nil]
    exact spanUntil_clean netlocDelim n hn
  · exact spanUntil_clean_hit netlocDelim n d r hn hd

lemma urlparse_abs (dflt url s n : String) (tail : List Char)
    (hurl : url.data = s.data ++ ':' :: '/' :: '/' :: (n.data ++ tail))
    (hs : validSchemeL s.data = true) (hlow : s.data.map Char.toLower = s.data)
    (hn : ∀ c ∈ n.data, netlocDelim c = false)
    (ht : tail = [] ∨ ∃ d r, tail = d :: r ∧ netlocDelim d = true) :
    (pyUrlparseD dflt url).scheme = s ∧ (pyUrlparseD dflt url).netloc = n := by
  have h1 : splitSchemeL url.data = (s.data, '/' :: '/' :: (n.data ++ tail)) := by
    rw [hurl]
    exact splitScheme_inv s.data ('/' :: '/' :: (n.data ++ tail)) hs hlow
  have h2 : splitNetlocL ('/' :: '/' :: (n.data ++ tail)) = (n.data, tail) :=
    splitNetloc_inv n.data tail hn ht
  have hne : s.data ≠ [] := validScheme_ne_nil s.data hs
  simp [pyUrlparseD, h1, h2, hne, str_mk_data]

/-! ## Well-formed URL components -/

/-- A well-formed, already-lowercased scheme (what CPython urlsplit accepts
and what it outputs). -/
def SchemeOk (s : String) : Prop :=
  validSchemeL s.data = true ∧ s.data.map Char.toLower = s.data

/-- A netloc free of the characters that would end the netloc component
(it may still contain `:` for a port). -/
def NetlocOk (n : String) : Prop := ∀ c ∈ n.data, netlocDelim c = false

/-- A path component that is empty or starts with a slash. -/
def PathOk (p : String) : Prop := p = "" ∨ headIs '/' p = true

/-- A bare hostname: nonempty, only alphanumerics, dots and hyphens. -/
def HostChars (s : String) : Prop :=
  s ≠ "" ∧ ∀ c ∈ s.data, c.isAlphanum = true ∨ c = '.' ∨ c = '-'

instance (s : String) : Decidable (SchemeOk s) := by
  unfold SchemeOk; infer_instance

instance (n : String) : Decidable (NetlocOk n) := by
  unfold NetlocOk; infer_instance

instance (p : String) : Decidable (PathOk p) := by
  unfold PathOk; infer_instance

instance (s : String) : Decidable (HostChars s) := by
  unfold HostChars; infer_instance

/-- Assemble a URL from scheme, netloc, path and query components. -/
def mkUrl (scheme netloc path query : String) : String :=
  scheme ++ "://" ++ netloc ++ path ++ (if query = "" then "" else "?" ++ query)

lemma mkUrl_data (s n p q : String) :
    (mkUrl s n p q).data =
      s.data ++ ':' :: '/' :: '/' ::
        (n.data ++ (p.data ++ (if q = "" then "" else "?" ++ q).data)) := by
  simp only [mkUrl, str_data_append, List.append_assoc]
  rfl

lemma hostChars_netlocOk (s : String) (h : HostChars s) : NetlocOk s := by
  intro c hc
  rcases h.2 c hc with hal | rfl | rfl
  · simp only [netlocDelim, Bool.or_eq_false_iff, beq_eq_false_iff_ne, ne_eq]
    refine ⟨⟨?_, ?_⟩, ?_⟩ <;> rintro rfl <;> simp [Char.isAlphanum, Char.isAlpha,
      Char.isDigit, Char.isUpper, Char.isLower] at hal
  · decide
  · decide

lemma mkUrl_tail_shape (p q : String) (hp : PathOk p) :
    (p.data ++ (if q = "" then "" else "?" ++ q).data) = [] ∨
    ∃ d r, (p.data ++ (if q = "" then "" else "?" ++ q).data) = d :: r ∧
      netlocDelim d = true := by
  rcases hp with rfl | hp
  · by_cases hq : q = ""
    · left; simp [hq]
    · right
      refine ⟨'?', q.data, ?_, by decide⟩
      simp [hq, str_data_append]
  · right
    unfold headIs at hp
    cases hpd : p.data with
    | nil => rw [hpd] at hp; simp at hp
    | cons x t =>
      rw [hpd] at hp
      simp only at hp
      have hx : x = '/' := by simpa using hp
      subst hx
      exact ⟨'/', t ++ (if q = "" then "" else "?" ++ q).data, by simp, by decide⟩

/-- Scheme and netloc of a parse of `mkUrl` recover the components. -/
lemma mkUrl_parse (s n p q : String) (hs : SchemeOk s) (hn : NetlocOk n)
    (hp : PathOk p) :
    (pyUrlparse (mkUrl s n p q)).scheme = s ∧
    (pyUrlparse (mkUrl s n p q)).netloc = n :=
  urlparse_abs "" (mkUrl s n p q) s n
    (p.data ++ (if q = "" then "" else "?" ++ q).data)
    (by rw [mkUrl_data]) hs.1 hs.2 hn (mkUrl_tail_shape p q hp)

/-! ## Origin Matcher claims -/

/-- The spec's `normalizeOrigin` (section 4.1), stated from its words for
comparison with the source's `normalize_origin`: parse the URL (defaulting
the scheme to https when none is given) and return `scheme://host[:port]`,
failing with `MalformedURL` when the input cannot be parsed as a URL (no
host can be extracted from it). -/
def normalizeOriginSpec (url : String) : Except String String :=
  let u := if containsSub "://".data url.data then url else "https://" ++ url
  let p := pyUrlparse u
  if p.netloc = "" then .error "MalformedURL"
  else .ok (p.scheme ++ "://" ++ p.netloc)

/-- Claim C2 counterexample: the empty string cannot be parsed as a URL
(the spec-modelled normalizeOrigin rejects it with `MalformedURL`), yet
the source's `normalize_origin` does not fail — it has no failure path at
all — and returns the string `https://`, which is not of the form
`scheme://host`. -/
theorem c2_counterexample :
    normalizeOriginSpec "" = Except.error "MalformedURL" ∧
    normalize_origin "" = "https://" := by
  constructor <;> rfl

/-- A netloc built only from alphanumerics, dots, hyphens and colons
(hosts, optionally with a port).  Such a netloc is bracket-free, so
CPython urlsplit's `ValueError("Invalid IPv6 URL")` cannot fire, and it
contains none of the characters newer CPython strips or rejects. -/
def NetlocSafe (n : String) : Prop :=
  ∀ c ∈ n.data, c.isAlphanum = true ∨ c = '.' ∨ c = '-' ∨ c = ':'

instance (n : String) : Decidable (NetlocSafe n) := by
  unfold NetlocSafe; infer_instance

lemma netlocSafe_netlocOk (n : String) (h : NetlocSafe n) : NetlocOk n := by
  intro c hc
  rcases h c hc with hal | rfl | rfl | rfl
  · simp only [netlocDelim, Bool.or_eq_false_iff, beq_eq_false_iff_ne, ne_eq]
    refine ⟨⟨?_, ?_⟩, ?_⟩ <;> rintro rfl <;> simp [Char.isAlphanum, Char.isAlpha,
      Char.isDigit, Char.isUpper, Char.isLower] at hal
  · decide
  · decide
  · decide

lemma netlocSafe_no_brackets (n : String) (h : NetlocSafe n) :
    '[' ∉ n.data ∧ ']' ∉ n.data := by
  constructor <;> intro hc <;> rcases h _ hc with hal | h1 | h1 | h1 <;>
    first
      | exact absurd hal (by decide)
      | exact absurd h1 (by decide)

lemma hostChars_no_sep (s : String) (hs : HostChars s) :
    containsSub "://".data s.data = false := by
  by_contra hcc
  have hcc2 : containsSub "://".data s.data = true := by
    revert hcc; cases containsSub "://".data s.data <;> simp
  have hcol : ':' ∈ s.data := containsSub_mem _ _ hcc2 ':' (by decide)
  rcases hs.2 ':' hcol with h1 | h1 | h1
  · exact absurd h1 (by decide)
  · exact absurd h1 (by decide)
  · exact absurd h1 (by decide)

lemma hostChars_no_brackets (s : String) (hs : HostChars s) :
    '[' ∉ s.data ∧ ']' ∉ s.data := by
  constructor <;> intro hc <;> rcases hs.2 _ hc with hal | h1 | h1 <;>
    first
      | exact absurd hal (by decide)
      | exact absurd h1 (by decide)

/-- CPython urlsplit raises `ValueError("Invalid IPv6 URL")` exactly when
the extracted netloc contains `[` without `]` or `]` without `[`; this
is the only exception urlparse can raise on the strings
`normalize_origin` feeds it. -/
def urlsplitRaisesIpv6 (url : String) : Bool :=
  let n := (splitNetlocL (splitSchemeL url.data).2).1
  (n.contains '[' && !(n.contains ']')) || (n.contains ']' && !(n.contains '['))

/-- `normalize_origin` with urlparse's ValueError path made explicit:
`none` models the Invalid IPv6 URL exception escaping (the source wraps
urlparse in no try/except), otherwise `some` of the string the source
returns. -/
def normalize_originE (url : String) : Option String :=
  let u := if containsSub "://".data url.data then url else "https://" ++ url
  if urlsplitRaisesIpv6 u then none else some (normalize_origin url)

lemma raises_ipv6_false (url s n : String) (tail : List Char)
    (hurl : url.data = s.data ++ ':' :: '/' :: '/' :: (n.data ++ tail))
    (hs : validSchemeL s.data = true)
    (hlow : s.data.map Char.toLower = s.data)
    (hn : ∀ c ∈ n.data, netlocDelim c = false)
    (ht : tail = [] ∨ ∃ d r, tail = d :: r ∧ netlocDelim d = true)
    (hnb : '[' ∉ n.data ∧ ']' ∉ n.data) :
    urlsplitRaisesIpv6 url = false := by
  have h1 : splitSchemeL url.data = (s.data, '/' :: '/' :: (n.data ++ tail)) := by
    rw [hurl]
    exact splitScheme_inv s.data ('/' :: '/' :: (n.data ++ tail)) hs hlow
  have h2 : splitNetlocL ('/' :: '/' :: (n.data ++ tail)) = (n.data, tail) :=
    splitNetloc_inv n.data tail hn ht
  simp [urlsplitRaisesIpv6, h1, h2, hnb.1, hnb.2]

lemma normalize_origin_host (s : String) (hs : HostChars s) :
    normalize_origin s = "https://" ++ s := by
  have hns := hostChars_no_sep s hs
  have hdata : ("https://" ++ s).data =
      ("https" : String).data ++ ':' :: '/' :: '/' :: (s.data ++ []) := by
    rw [str_data_append, List.append_nil]
    rfl
  have hcomp := urlparse_abs "" ("https://" ++ s) "https" s [] hdata
    (by decide) (by decide) (hostChars_netlocOk s hs) (Or.inl rfl)
  have hsch : (pyUrlparse ("https://" ++ s)).scheme = "https" := hcomp.1
  have hnl : (pyUrlparse ("https://" ++ s)).netloc = s := hcomp.2
  simp only [normalize_origin, hns, Bool.false_eq_true, if_false]
  rw [hsch, hnl]
  rw [if_neg (by decide : ¬ ("https" : String) = ""), if_neg hs.1]
  apply str_ext
  simp only [str_data_append]
  rw [show ("https" : String).data ++ ("://" : String).data =
    ("https://" : String).data from rfl]

lemma normalize_origin_absolute (s n p q : String) (hs : SchemeOk s)
    (hn : NetlocOk n) (hnne : n ≠ "") (hp : PathOk p) :
    normalize_origin (mkUrl s n p q) = s ++ "://" ++ n := by
  have hcs : containsSub "://".data (mkUrl s n p q).data = true := by
    rw [mkUrl_data]
    exact containsSub_sep s.data _
  have hcomp := mkUrl_parse s n p q hs hn hp
  have hsne : s ≠ "" := by
    intro h
    subst h
    exact validScheme_ne_nil [] hs.1 rfl
  simp only [normalize_origin, hcs, if_true]
  rw [hcomp.1, hcomp.2, if_neg hsne, if_neg hnne]

/-- Claim C2 (amended): `normalize_origin` performs no seed-URL
validation — it has no `MalformedURL` error path.  Whenever urlparse
itself does not raise (its only exception here is the Invalid IPv6 URL
`ValueError` for an unbalanced-bracket netloc, modelled by
`normalize_originE` returning `none`), the function returns a string
rather than rejecting the input: `https://host` for a bare hostname
(the scheme defaulted to https) and `scheme://netloc` for a well-formed
absolute URL with a bracket-free netloc; the unparseable empty string
yields `https://` (the counterexample) instead of an error. -/
theorem c2_normalize_origin_no_validation :
    (∀ s : String, HostChars s →
      normalize_originE s = some ("https://" ++ s)) ∧
    (∀ s n p q : String, SchemeOk s → NetlocSafe n → n ≠ "" → PathOk p →
      normalize_originE (mkUrl s n p q) = some (s ++ "://" ++ n)) ∧
    normalize_originE "https://[" = none := by
  refine ⟨?_, ?_, by rfl⟩
  · intro s hs
    have hns := hostChars_no_sep s hs
    have hdata : ("https://" ++ s).data =
        ("https" : String).data ++ ':' :: '/' :: '/' :: (s.data ++ []) := by
      rw [str_data_append, List.append_nil]
      rfl
    have hraise : urlsplitRaisesIpv6 ("https://" ++ s) = false :=
      raises_ipv6_false ("https://" ++ s) "https" s [] hdata (by decide)
        (by decide) (hostChars_netlocOk s hs) (Or.inl rfl)
        (hostChars_no_brackets s hs)
    simp only [normalize_originE, hns, Bool.false_eq_true, if_false, hraise]
    rw [normalize_origin_host s hs]
  · intro s n p q hs hn hnne hp
    have hok := netlocSafe_netlocOk n hn
    have hcs : containsSub "://".data (mkUrl s n p q).data = true := by
      rw [mkUrl_data]
      exact containsSub_sep s.data _
    have hraise : urlsplitRaisesIpv6 (mkUrl s n p q) = false :=
      raises_ipv6_false (mkUrl s n p q) s n
        (p.data ++ (if q = "" then "" else "?" ++ q).data)
        (mkUrl_data s n p q) hs.1 hs.2 hok (mkUrl_tail_shape p q hp)
        (netlocSafe_no_brackets n hn)
    simp only [normalize_originE, hcs, if_true, hraise, Bool.false_eq_true,
      if_false]
    rw [normalize_origin_absolute s n p q hs hok hnne hp]

/-- Witness for the amended C2 at a bare hostname and an absolute URL
with a bracket-free host-and-port netloc. -/
theorem c2_normalize_origin_no_validation_witness :
    normalize_originE "app.example.com" = some ("https://" ++ "app.example.com") ∧
    normalize_originE (mkUrl "https" "example.com:8080" "/x" "y") =
      some ("https" ++ "://" ++ "example.com:8080") :=
  ⟨c2_normalize_origin_no_validation.1 "app.example.com" (by decide),
   c2_normalize_origin_no_validation.2.1 "https" "example.com:8080" "/x" "y"
     (by decide) (by decide) (by decide) (by decide)⟩

lemma str_beq_comm (a b : String) : (a == b) = (b == a) := by
  by_cases h : a = b
  · subst h; rfl
  · rw [beq_eq_false_iff_ne.mpr h, beq_eq_false_iff_ne.mpr (Ne.symm h)]

/-- Claim C8: `is_same_origin` is reflexive and symmetric; two well-formed
URLs sharing scheme and netloc but differing only in path or query are
same-origin; two well-formed URLs differing in scheme, or differing in
host (with port), are not same-origin. -/
theorem c8_is_same_origin :
    (∀ u : String, is_same_origin u u = true) ∧
    (∀ u v : String, is_same_origin u v = is_same_origin v u) ∧
    (∀ s n p1 q1 p2 q2 : String, SchemeOk s → NetlocOk n →
      PathOk p1 → PathOk p2 →
      is_same_origin (mkUrl s n p1 q1) (mkUrl s n p2 q2) = true) ∧
    (∀ s1 s2 n1 n2 p1 q1 p2 q2 : String, SchemeOk s1 → SchemeOk s2 →
      NetlocOk n1 → NetlocOk n2 → PathOk p1 → PathOk p2 → s1 ≠ s2 →
      is_same_origin (mkUrl s1 n1 p1 q1) (mkUrl s2 n2 p2 q2) = false) ∧
    (∀ s1 s2 n1 n2 p1 q1 p2 q2 : String, SchemeOk s1 → SchemeOk s2 →
      NetlocOk n1 → NetlocOk n2 → PathOk p1 → PathOk p2 → n1 ≠ n2 →
      is_same_origin (mkUrl s1 n1 p1 q1) (mkUrl s2 n2 p2 q2) = false) := by
  refine ⟨?_, ?_, ?_, ?_, ?_⟩
  · intro u
    simp [is_same_origin]
  · intro u v
    simp only [is_same_origin]
    rw [str_beq_comm (pyUrlparse u).scheme (pyUrlparse v).scheme,
      str_beq_comm (pyUrlparse u).netloc (pyUrlparse v).netloc]
  · intro s n p1 q1 p2 q2 hs hn hp1 hp2
    have h1 := mkUrl_parse s n p1 q1 hs hn hp1
    have h2 := mkUrl_parse s n p2 q2 hs hn hp2
    simp [is_same_origin, h1.1, h1.2, h2.1, h2.2]
  · intro s1 s2 n1 n2 p1 q1 p2 q2 hs1 hs2 hn1 hn2 hp1 hp2 hne
    have h1 := mkUrl_parse s1 n1 p1 q1 hs1 hn1 hp1
    have h2 := mkUrl_parse s2 n2 p2 q2 hs2 hn2 hp2
    simp [is_same_origin, h1.1, h1.2, h2.1, h2.2, hne]
  · intro s1 s2 n1 n2 p1 q1 p2 q2 hs1 hs2 hn1 hn2 hp1 hp2 hne
    have h1 := mkUrl_parse s1 n1 p1 q1 hs1 hn1 hp1
    have h2 := mkUrl_parse s2 n2 p2 q2 hs2 hn2 hp2
    simp [is_same_origin, h1.1, h1.2, h2.1, h2.2, hne]

/-- Witness for C8: same host with different paths/queries is same-origin;
scheme or host differences are not. -/
theorem c8_is_same_origin_witness :
    is_same_origin (mkUrl "https" "example.com" "/a" "")
      (mkUrl "https" "example.com" "/b" "z") = true ∧
    is_same_origin (mkUrl "http" "example.com" "/a" "")
      (mkUrl "https" "example.com" "/a" "") = false ∧
    is_same_origin (mkUrl "https" "example.com" "/a" "")
      (mkUrl "https" "example.com:8443" "/a" "") = false :=
  ⟨c8_is_same_origin.2.2.1 "https" "example.com" "/a" "" "/b" "z"
     (by decide) (by decide) (by decide) (by decide),
   c8_is_same_origin.2.2.2.1 "http" "https" "example.com" "example.com"
     "/a" "" "/a" "" (by decide) (by decide) (by decide) (by decide)
     (by decide) (by decide) (by decide),
   c8_is_same_origin.2.2.2.2 "https" "https" "example.com" "example.com:8443"
     "/a" "" "/a" "" (by decide) (by decide) (by decide) (by decide)
     (by decide) (by decide) (by decide)⟩

/-! ## Session Locator claims -/

lemma find?_some_split {α : Type} (p : α → Bool) (l : List α) (a : α)
    (h : l.find? p = some a) :
    p a = true ∧ ∃ pre post, l = pre ++ a :: post ∧ ∀ x ∈ pre, p x = false := by
  induction l with
  | nil => simp [List.find?] at h
  | cons b rest ih =>
    by_cases hb : p b = true
    · rw [List.find?_cons_of_pos _ hb] at h
      obtain rfl : b = a := by injection h
      exact ⟨hb, [], rest, rfl, by simp⟩
    · rw [List.find?_cons_of_neg _ hb] at h
      obtain ⟨hpa, pre, post, heq, hpre⟩ := ih h
      refine ⟨hpa, b :: pre, post, by simp [heq], ?_⟩
      intro x hx
      rcases List.mem_cons.mp hx with rfl | hx
      · exact Bool.eq_false_iff.mpr hb
      · exact hpre x hx

lemma wfd_ok (e : String) (rounds : List (List PageView)) (pg : PageView)
    (h : wait_for_dashboard e rounds = .ok pg) :
    pageMatches e pg = true ∧
    ∃ k pre post, rounds.get? k = some (pre ++ pg :: post) ∧
      (∀ j r, j < k → rounds.get? j = some r →
        ∀ p ∈ r, pageMatches e p = false) ∧
      (∀ p ∈ pre, pageMatches e p = false) := by
  induction rounds with
  | nil => simp [wait_for_dashboard] at h
  | cons round rest ih =>
    simp only [wait_for_dashboard] at h
    cases hf : round.find? (pageMatches e) with
    | some q =>
      rw [hf] at h
      obtain rfl : q = pg := by injection h
      obtain ⟨hq, pre, post, heq, hpre⟩ := find?_some_split _ _ _ hf
      refine ⟨hq, 0, pre, post, by simp [heq], ?_, hpre⟩
      intro j r hj
      exact absurd hj (Nat.not_lt_zero j)
    | none =>
      rw [hf] at h
      obtain ⟨hpg, k, pre, post, hk, hearlier, hpre⟩ := ih h
      refine ⟨hpg, k + 1, pre, post, by simpa using hk, ?_, hpre⟩
      intro j r hj hr
      cases j with
      | zero =>
        obtain rfl : round = r := by simpa using hr
        intro p hp
        exact Bool.eq_false_iff.mpr (List.find?_eq_none.mp hf p hp)
      | succ j2 =>
        exact hearlier j2 r (by omega) (by simpa using hr)

lemma wfd_error (e : String) (rounds : List (List PageView)) (msg : String)
    (h : wait_for_dashboard e rounds = .error msg) :
    msg = "Timed out waiting for dashboard at " ++ normalize_origin e ∧
    ∀ r ∈ rounds, ∀ p ∈ r, pageMatches e p = false := by
  induction rounds with
  | nil =>
    simp only [wait_for_dashboard] at h
    refine ⟨?_, by simp⟩
    injection h with h2
    exact h2.symm
  | cons round rest ih =>
    simp only [wait_for_dashboard] at h
    cases hf : round.find? (pageMatches e) with
    | some q =>
      rw [hf] at h
      exact Except.noConfusion h
    | none =>
      rw [hf] at h
      obtain ⟨hm, hall⟩ := ih h
      refine ⟨hm, ?_⟩
      intro r hr p hp
      rcases List.mem_cons.mp hr with rfl | hr
      · exact Bool.eq_false_iff.mpr (List.find?_eq_none.mp hf p hp)
      · exact hall r hr p hp

lemma wfd_nomatch (e : String) (rounds : List (List PageView))
    (h : ∀ r ∈ rounds, ∀ p ∈ r, pageMatches e p = false) :
    wait_for_dashboard e rounds =
      .error ("Timed out waiting for dashboard at " ++ normalize_origin e) := by
  induction rounds with
  | nil => rfl
  | cons round rest ih =>
    simp only [wait_for_dashboard]
    have hf : round.find? (pageMatches e) = none :=
      List.find?_eq_none.mpr
        (fun p hp => by simp [h round (List.mem_cons_self _ _) p hp])
    rw [hf]
    exact ih (fun r hr => h r (List.mem_cons_of_mem _ hr))

/-- Claim C9: the Session Locator returns the first open page — in the
earliest poll round containing a match, the first matching page of that
round — whose (nonempty) URL is same-origin with the normalized target
origin or is prefixed by the exact target URL string.  When no open page
in any round before the deadline matches, it fails with the timeout
error carrying the expected origin in its message, and that timeout is
its only failure mode (an error is raised exactly when no page ever
matched). -/
theorem c9_session_locator (expected_url : String)
    (rounds : List (List PageView)) :
    (∀ pg, wait_for_dashboard expected_url rounds = .ok pg →
      pageMatches expected_url pg = true ∧
      ∃ k pre post, rounds.get? k = some (pre ++ pg :: post) ∧
        (∀ j r, j < k → rounds.get? j = some r →
          ∀ p ∈ r, pageMatches expected_url p = false) ∧
        (∀ p ∈ pre, pageMatches expected_url p = false)) ∧
    (∀ msg, wait_for_dashboard expected_url rounds = .error msg →
      msg = "Timed out waiting for dashboard at " ++
        normalize_origin expected_url ∧
      ∀ r ∈ rounds, ∀ p ∈ r, pageMatches expected_url p = false) ∧
    ((∀ r ∈ rounds, ∀ p ∈ r, pageMatches expected_url p = false) →
      wait_for_dashboard expected_url rounds =
        .error ("Timed out waiting for dashboard at " ++
          normalize_origin expected_url)) :=
  ⟨fun pg h => wfd_ok expected_url rounds pg h,
   fun msg h => wfd_error expected_url rounds msg h,
   fun h => wfd_nomatch expected_url rounds h⟩

/-- Witness for C9: a matching second-round page is found; a run whose
only open page never matches times out with the expected origin. -/
theorem c9_session_locator_witness :
    (pageMatches "https://app.example.com"
        (PageView.mk "https://app.example.com/home") = true ∧
      ∃ k pre post,
        ([[PageView.mk "https://app.example.com/home"]] :
          List (List PageView)).get? k =
          some (pre ++ PageView.mk "https://app.example.com/home" :: post) ∧
        (∀ j r, j < k →
          ([[PageView.mk "https://app.example.com/home"]] :
            List (List PageView)).get? j = some r →
          ∀ p ∈ r, pageMatches "https://app.example.com" p = false) ∧
        (∀ p ∈ pre, pageMatches "https://app.example.com" p = false)) ∧
    wait_for_dashboard "https://app.example.com"
        [[PageView.mk "http://other.com/x"]] =
      .error ("Timed out waiting for dashboard at " ++
        normalize_origin "https://app.example.com") :=
  ⟨(c9_session_locator "https://app.example.com"
      [[PageView.mk "https://app.example.com/home"]]).1
      (PageView.mk "https://app.example.com/home") (by rfl),
   (c9_session_locator "https://app.example.com"
      [[PageView.mk "http://other.com/x"]]).2.2 (by decide)⟩

/-! ## Page Harvester claims -/

lemma bool_eq_false_of_ne {b : Bool} (h : ¬ b = true) : b = false := by
  revert h; cases b <;> simp

lemma foldl_inv {α β : Type} (P : β → Prop) (f : β → α → β) (l : List α)
    (b : β) (hb : P b) (hf : ∀ x a, a ∈ l → P x → P (f x a)) :
    P (l.foldl f b) := by
  induction l generalizing b with
  | nil => exact hb
  | cons a rest ih =>
    exact ih (f b a) (hf b a (List.mem_cons_self _ _) hb)
      (fun x c hc hx => hf x c (List.mem_cons_of_mem _ hc) hx)

/-- Invariant of the harvest accumulator when the same-origin restriction
is on: every recorded endpoint is same-origin and DOM-sourced, every
crawl link is a same-origin resolved anchor href, and the crawl-link set
has no duplicates. -/
def HarvestInv (dom : List DomElem) (pageUrl base : String)
    (st : List Endpoint × List String) : Prop :=
  (∀ e ∈ st.1, is_same_origin e.url base = true ∧ e.source = "dom") ∧
  (∀ l ∈ st.2, is_same_origin l base = true ∧
    ∃ el v, el ∈ dom ∧ el.tag = "a" ∧ getAttr el "href" = some v ∧
      l = pyUrljoin pageUrl v) ∧
  st.2.Nodup

lemma querySel_mem (dom : List DomElem) (tag attr : String) (el : DomElem)
    (h : el ∈ querySelAll dom tag attr) : el ∈ dom ∧ el.tag = tag := by
  unfold querySelAll at h
  have h2 := List.mem_filter.mp h
  refine ⟨h2.1, ?_⟩
  have h3 := h2.2
  simp only [Bool.and_eq_true, beq_iff_eq] at h3
  exact h3.1

lemma processCandidate_inv (dom : List DomElem) (pageUrl base : String)
    (tag : String) (st : List Endpoint × List String) (c : String)
    (hinv : HarvestInv dom pageUrl base st)
    (hanchor : tag = "a" →
      ∃ el, el ∈ dom ∧ el.tag = "a" ∧ getAttr el "href" = some c) :
    HarvestInv dom pageUrl base (processCandidate pageUrl base true tag st c) := by
  obtain ⟨h1, h2, h3⟩ := hinv
  unfold processCandidate
  by_cases hso : is_same_origin (pyUrljoin pageUrl c) base = true
  · rw [if_neg (by simp [hso])]
    refine ⟨?_, ?_, ?_⟩
    · intro e he
      rcases List.mem_append.mp he with he | he
      · exact h1 e he
      · have he2 : e = { url := pyUrljoin pageUrl c, source := "dom" } := by
          simpa using he
        subst he2
        exact ⟨hso, rfl⟩
    · intro l hl
      by_cases htag : (tag == "a") = true
      · rw [if_pos (by simp [htag, hso])] at hl
        by_cases hmem : pyUrljoin pageUrl c ∈ st.2
        · rw [if_pos hmem] at hl
          exact h2 l hl
        · rw [if_neg hmem] at hl
          rcases List.mem_append.mp hl with hl | hl
          · exact h2 l hl
          · have hl2 : l = pyUrljoin pageUrl c := by simpa using hl
            subst hl2
            obtain ⟨el, hel, heltag, hattr⟩ := hanchor (by simpa using htag)
            exact ⟨hso, el, c, hel, heltag, hattr, rfl⟩
      · rw [if_neg (by simp [bool_eq_false_of_ne htag])] at hl
        exact h2 l hl
    · by_cases htag : (tag == "a") = true
      · rw [if_pos (by simp [htag, hso])]
        by_cases hmem : pyUrljoin pageUrl c ∈ st.2
        · rw [if_pos hmem]; exact h3
        · rw [if_neg hmem]
          simp [List.nodup_append, h3, hmem]
      · rw [if_neg (by simp [bool_eq_false_of_ne htag])]
        exact h3
  · rw [if_pos (by simp [bool_eq_false_of_ne hso])]
    exact ⟨h1, h2, h3⟩

lemma processElem_inv (dom : List DomElem) (pageUrl base : String)
    (tag attr : String) (el : DomElem) (st : List Endpoint × List String)
    (hinv : HarvestInv dom pageUrl base st)
    (hel : el ∈ querySelAll dom tag attr)
    (hattr : tag = "a" → attr = "href") :
    HarvestInv dom pageUrl base (processElem pageUrl base true tag attr st el) := by
  unfold processElem
  cases hga : getAttr el attr with
  | none => exact hinv
  | some val =>
    dsimp only
    by_cases hval : val = ""
    · rw [if_pos hval]; exact hinv
    · rw [if_neg hval]
      apply foldl_inv (HarvestInv dom pageUrl base) _ _ _ hinv
      intro x c hc hx
      apply processCandidate_inv dom pageUrl base tag x c hx
      intro htag
      obtain ⟨heldom, heltag⟩ := querySel_mem dom tag attr el hel
      have hattr2 : attr = "href" := hattr htag
      subst hattr2
      have hcands : candidatesOf "href" val = [val] := by
        unfold candidatesOf
        rw [if_neg (by decide)]
      rw [hcands] at hc
      have hc2 : c = val := by simpa using hc
      subst hc2
      exact ⟨el, heldom, htag ▸ heltag, hga⟩

lemma collect_dom_links_inv (σ : List String → List String)
    (pageUrl : String) (dom : List DomElem) (base : String)
    (hσ : SetListing σ) :
    (∀ e ∈ (collect_dom_links σ pageUrl dom base true).1,
      is_same_origin e.url base = true ∧ e.source = "dom") ∧
    (∀ l ∈ (collect_dom_links σ pageUrl dom base true).2,
      is_same_origin l base = true ∧
      ∃ el v, el ∈ dom ∧ el.tag = "a" ∧ getAttr el "href" = some v ∧
        l = pyUrljoin pageUrl v) ∧
    (collect_dom_links σ pageUrl dom base true).2.Nodup := by
  have hst : HarvestInv dom pageUrl base
      (selAttrs.foldl (fun st ta =>
        (querySelAll dom ta.1 ta.2).foldl
          (processElem pageUrl base true ta.1 ta.2) st) ([], [])) := by
    apply foldl_inv (HarvestInv dom pageUrl base)
    · exact ⟨by simp, by simp, List.nodup_nil⟩
    · intro st ta hta hst
      apply foldl_inv (HarvestInv dom pageUrl base) _ _ _ hst
      intro x el hel hx
      apply processElem_inv dom pageUrl base ta.1 ta.2 el x hx hel
      intro htag
      have : ∀ p ∈ selAttrs, p.1 = "a" → p.2 = "href" := by decide
      exact this ta hta htag
  obtain ⟨h1, h2, h3⟩ := hst
  have hperm := hσ (selAttrs.foldl (fun st ta =>
    (querySelAll dom ta.1 ta.2).foldl
      (processElem pageUrl base true ta.1 ta.2) st) ([], [])).2
  refine ⟨h1, ?_, ?_⟩
  · intro l hl
    have hl2 : l ∈ (selAttrs.foldl (fun st ta =>
        (querySelAll dom ta.1 ta.2).foldl
          (processElem pageUrl base true ta.1 ta.2) st) ([], [])).2 :=
      List.mem_dedup.mp (hperm.mem_iff.mp hl)
    exact h2 l hl2
  · exact hperm.symm.nodup (List.nodup_dedup _)

/-- One admissible set listing: iteration in insertion order. -/
def insertionOrder : List String → List String := fun l => l.dedup

/-- Another admissible set listing: iteration in reversed insertion order
(Python set iteration order is unspecified, so both are legitimate). -/
def reversedOrder : List String → List String := fun l => l.dedup.reverse

lemma insertionOrder_setListing : SetListing insertionOrder :=
  fun _ => List.Perm.refl _

lemma reversedOrder_setListing : SetListing reversedOrder :=
  fun l => List.reverse_perm l.dedup

/-- The DOM of the C7 scenario page: one same-origin anchor and one
cross-origin script reference. -/
def scenarioDom : List DomElem :=
  [⟨"a", [("href", "/about")]⟩,
   ⟨"script", [("src", "https://cdn.other.com/x.js")]⟩]

/-- Claim C7: with the same-origin restriction on, the Page Harvester
discards every resolved URL that is not same-origin with the base origin
— every returned endpoint is same-origin (and DOM-sourced), and every
crawl candidate is a same-origin resolved anchor href, with the
candidate list free of duplicates.  In the concrete scenario (dashboard
`https://app.example.com/home`, one anchor to `/about`, one cross-origin
script `https://cdn.other.com/x.js`), the harvest returns exactly the
resolved `/about` endpoint and crawl candidate, and the cross-origin
script URL appears nowhere. -/
theorem c7_harvester_same_origin :
    (∀ (σ : List String → List String) (pageUrl : String)
      (dom : List DomElem) (base : String), SetListing σ →
      (∀ e ∈ (collect_dom_links σ pageUrl dom base true).1,
        is_same_origin e.url base = true ∧ e.source = "dom") ∧
      (∀ l ∈ (collect_dom_links σ pageUrl dom base true).2,
        is_same_origin l base = true ∧
        ∃ el v, el ∈ dom ∧ el.tag = "a" ∧ getAttr el "href" = some v ∧
          l = pyUrljoin pageUrl v) ∧
      (collect_dom_links σ pageUrl dom base true).2.Nodup) ∧
    collect_dom_links insertionOrder "https://app.example.com/home"
      scenarioDom "https://app.example.com" true =
      ([{ url := "https://app.example.com/about", source := "dom" }],
       ["https://app.example.com/about"]) := by
  constructor
  · intro σ pageUrl dom base hσ
    exact collect_dom_links_inv σ pageUrl dom base hσ
  · rfl

/-- Witness for C7 at the scenario inputs with insertion-order listing. -/
theorem c7_harvester_same_origin_witness :
    (∀ e ∈ (collect_dom_links insertionOrder "https://app.example.com/home"
        scenarioDom "https://app.example.com" true).1,
      is_same_origin e.url "https://app.example.com" = true ∧
        e.source = "dom") ∧
    (∀ l ∈ (collect_dom_links insertionOrder "https://app.example.com/home"
        scenarioDom "https://app.example.com" true).2,
      is_same_origin l "https://app.example.com" = true ∧
      ∃ el v, el ∈ scenarioDom ∧ el.tag = "a" ∧ getAttr el "href" = some v ∧
        l = pyUrljoin "https://app.example.com/home" v) ∧
    (collect_dom_links insertionOrder "https://app.example.com/home"
      scenarioDom "https://app.example.com" true).2.Nodup :=
  c7_harvester_same_origin.1 insertionOrder "https://app.example.com/home"
    scenarioDom "https://app.example.com" insertionOrder_setListing

/-! ## DOM endpoints and the static filter (claim C10) -/

lemma processCandidate_source (pageUrl base : String) (so : Bool)
    (tag : String) (st : List Endpoint × List String) (c : String)
    (h : ∀ e ∈ st.1, e.source = "dom") :
    ∀ e ∈ (processCandidate pageUrl base so tag st c).1, e.source = "dom" := by
  unfold processCandidate
  by_cases hc : (so && !(is_same_origin (pyUrljoin pageUrl c) base)) = true
  · rw [if_pos hc]; exact h
  · rw [if_neg hc]
    intro e he
    rcases List.mem_append.mp he with he | he
    · exact h e he
    · have he2 : e = { url := pyUrljoin pageUrl c, source := "dom" } := by
        simpa using he
      subst he2; rfl

lemma processElem_source (pageUrl base : String) (so : Bool)
    (tag attr : String) (el : DomElem) (st : List Endpoint × List String)
    (h : ∀ e ∈ st.1, e.source = "dom") :
    ∀ e ∈ (processElem pageUrl base so tag attr st el).1, e.source = "dom" := by
  unfold processElem
  cases getAttr el attr with
  | none => exact h
  | some val =>
    dsimp only
    by_cases hval : val = ""
    · rw [if_pos hval]; exact h
    · rw [if_neg hval]
      exact foldl_inv (fun st => ∀ e ∈ st.1, e.source = "dom") _ _ _ h
        (fun x c _ hx => processCandidate_source pageUrl base so tag x c hx)

lemma collect_source_dom (σ : List String → List String) (pageUrl : String)
    (dom : List DomElem) (base : String) (so : Bool) :
    ∀ e ∈ (collect_dom_links σ pageUrl dom base so).1, e.source = "dom" := by
  apply foldl_inv (fun st : List Endpoint × List String =>
    ∀ e ∈ st.1, e.source = "dom")
  · simp
  · intro st ta _ hst
    exact foldl_inv (fun st : List Endpoint × List String =>
        ∀ e ∈ st.1, e.source = "dom") _ _ _ hst
      (fun x el _ hx => processElem_source pageUrl base so ta.1 ta.2 el x hx)

lemma scrape_source_dom (σ : List String → List String) (pg : PageModel)
    (base : String) (so : Bool) :
    ∀ e ∈ (scrape_current_page σ pg base so).1, e.source = "dom" := by
  intro e he
  rcases List.mem_append.mp he with he | he
  · exact collect_source_dom σ pg.url pg.dom1 base so e he
  · exact collect_source_dom σ pg.url pg.dom2 base so e he

lemma dedupe_aux_mem_url (seen : List String) (l : List Endpoint) (u : String)
    (h : u ∈ l.map Endpoint.url) :
    u ∈ seen ∨ u ∈ (dedupe_aux seen l).map Endpoint.url := by
  induction l generalizing seen with
  | nil => simp at h
  | cons ep rest ih =>
    rcases List.mem_map.mp h with ⟨e, he, heq⟩
    rcases List.mem_cons.mp he with rfl | he
    · by_cases hs : e.url ∈ seen
      · left; exact heq ▸ hs
      · right
        simp only [dedupe_aux, if_neg hs, List.map_cons]
        exact heq ▸ List.mem_cons_self _ _
    · by_cases hs : ep.url ∈ seen
      · simp only [dedupe_aux, if_pos hs]
        exact ih seen (heq ▸ List.mem_map_of_mem Endpoint.url he)
      · simp only [dedupe_aux, if_neg hs, List.map_cons]
        rcases ih (ep.url :: seen)
            (heq ▸ List.mem_map_of_mem Endpoint.url he) with hin | hin
        · rcases List.mem_cons.mp hin with heq2 | hin
          · right; exact heq2 ▸ List.mem_cons_self _ _
          · left; exact hin
        · right; exact List.mem_cons_of_mem _ hin

lemma dedupe_mem_url (l : List Endpoint) (u : String)
    (h : u ∈ l.map Endpoint.url) : u ∈ (dedupe l).map Endpoint.url := by
  rcases dedupe_aux_mem_url [] l u h with hin | hin
  · simp at hin
  · exact hin

/-- Claim C10: the only-API filter applies only to network-captured
endpoints — with `include_static = false`, every endpoint harvested from
the dashboard DOM carries source "dom" and its URL still appears in the
deduplicated aggregated result, even when its URL does not look API-like
(the DOM harvest path applies no static/API filtering at all; the
non-API-likeness hypothesis is never needed by the harvest). -/
theorem c10_dom_not_filtered (σ : List String → List String)
    (netBefore netAfter : List NetRequest) (dash : PageModel)
    (base : String) (so : Bool) (e : Endpoint)
    (he : e ∈ (scrape_current_page σ dash base so).1)
    (hnotapi : guess_api_like "script" e.url = false) :
    e.source = "dom" ∧
    e.url ∈ (run_endpoints_nocrawl σ netBefore netAfter dash base so false).map
      Endpoint.url := by
  refine ⟨scrape_source_dom σ dash base so e he, ?_⟩
  apply dedupe_mem_url
  apply List.mem_map_of_mem Endpoint.url
  exact List.mem_append.mpr (Or.inl (List.mem_append.mpr (Or.inr he)))

/-- The dashboard page of the C7/C10 scenario (the same DOM before and
after the scroll probe). -/
def scenarioPage : PageModel :=
  ⟨"https://app.example.com/home", scenarioDom, scenarioDom⟩

/-- Witness for C10: the non-API-like `/about` DOM endpoint survives an
only-API run alongside a captured xhr request. -/
theorem c10_dom_not_filtered_witness :
    ({ url := "https://app.example.com/about", source := "dom" } : Endpoint).source
        = "dom" ∧
    "https://app.example.com/about" ∈
      (run_endpoints_nocrawl insertionOrder
        [⟨"https://app.example.com/data", "xhr", "GET"⟩] []
        scenarioPage "https://app.example.com" true false).map Endpoint.url :=
  c10_dom_not_filtered insertionOrder
    [⟨"https://app.example.com/data", "xhr", "GET"⟩] []
    scenarioPage "https://app.example.com" true
    { url := "https://app.example.com/about", source := "dom" }
    (by decide) (by decide)

/-! ## Crawl Coordinator lemmas -/

lemma enqueue_sub (visited queue links : List String) :
    ∀ l ∈ enqueueLinks visited queue links,
      l ∈ queue ∨ (l ∉ visited ∧ l ∈ links) := by
  apply foldl_inv (fun q : List String =>
    ∀ l ∈ q, l ∈ queue ∨ (l ∉ visited ∧ l ∈ links))
  · exact fun l hl => Or.inl hl
  · intro q x hx hq
    by_cases hg : x ∈ visited ∨ x ∈ q
    · rw [if_pos hg]; exact hq
    · rw [if_neg hg]
      intro l hl
      rcases List.mem_append.mp hl with hl | hl
      · exact hq l hl
      · have hl2 : l = x := by simpa using hl
        subst hl2
        exact Or.inr ⟨fun hc => hg (Or.inl hc), hx⟩

lemma enqueue_extends (visited queue links : List String) :
    ∃ t, enqueueLinks visited queue links = queue ++ t := by
  apply foldl_inv (fun q : List String => ∃ t, q = queue ++ t)
  · exact ⟨[], by simp⟩
  · intro q x _ hq
    obtain ⟨t, rfl⟩ := hq
    by_cases hg : x ∈ visited ∨ x ∈ queue ++ t
    · rw [if_pos hg]; exact ⟨t, rfl⟩
    · rw [if_neg hg]; exact ⟨t ++ [x], by simp⟩

lemma enqueue_mem_of_link (visited : List String) :
    ∀ (links queue : List String), ∀ l ∈ links,
      l ∈ visited ∨ l ∈ enqueueLinks visited queue links := by
  intro links
  induction links with
  | nil => intro queue l hl; simp at hl
  | cons x rest ih =>
    intro queue l hl
    have hstep : enqueueLinks visited queue (x :: rest) =
        enqueueLinks visited
          (if x ∈ visited ∨ x ∈ queue then queue else queue ++ [x]) rest := rfl
    rcases List.mem_cons.mp hl with rfl | hl
    · by_cases hv : l ∈ visited
      · exact Or.inl hv
      · right
        rw [hstep]
        obtain ⟨t, ht⟩ := enqueue_extends visited
          (if l ∈ visited ∨ l ∈ queue then queue else queue ++ [l]) rest
        rw [ht]
        apply List.mem_append_left
        by_cases hq : l ∈ queue
        · rw [if_pos (Or.inr hq)]; exact hq
        · rw [if_neg (by tauto)]; simp
    · rw [hstep]
      exact ih _ l hl

lemma enqueue_nodup (visited queue links : List String) (h : queue.Nodup) :
    (enqueueLinks visited queue links).Nodup := by
  apply foldl_inv (fun q : List String => q.Nodup) _ _ _ h
  intro q x _ hq
  by_cases hg : x ∈ visited ∨ x ∈ q
  · rw [if_pos hg]; exact hq
  · rw [if_neg hg]
    simp only [List.nodup_append, hq, List.nodup_cons]
    simp only [not_or] at hg
    simp [hg.2, hq]

lemma enqueue_len (visited : List String) :
    ∀ (links queue : List String),
      (enqueueLinks visited queue links).length ≤
        queue.length + links.length := by
  intro links
  induction links with
  | nil => intro queue; simp [enqueueLinks]
  | cons x rest ih =>
    intro queue
    have hstep : enqueueLinks visited queue (x :: rest) =
        enqueueLinks visited
          (if x ∈ visited ∨ x ∈ queue then queue else queue ++ [x]) rest := rfl
    rw [hstep]
    by_cases hg : x ∈ visited ∨ x ∈ queue
    · rw [if_pos hg]
      calc (enqueueLinks visited queue rest).length
          ≤ queue.length + rest.length := ih queue
        _ ≤ queue.length + (x :: rest).length := by simp [Nat.le_succ]
    · rw [if_neg hg]
      calc (enqueueLinks visited (queue ++ [x]) rest).length
          ≤ (queue ++ [x]).length + rest.length := ih (queue ++ [x])
        _ = queue.length + (x :: rest).length := by simp; omega

lemma cl_order_visited (σ : List String → List String) (web : Web)
    (base : String) (so : Bool) :
    ∀ (fuel : Nat) (visited queue : List String) (eps : List Endpoint)
      (order : List String) (e2 : List Endpoint) (o2 v2 : List String),
      crawl_loop σ web base so fuel visited queue eps order =
        some (e2, o2, v2) →
      ∃ t, o2 = order ++ t ∧ v2 = t.reverse ++ visited := by
  intro fuel
  induction fuel with
  | zero =>
    intro visited queue eps order e2 o2 v2 h
    simp only [crawl_loop] at h
    by_cases hq : queue = []
    · rw [if_pos hq] at h
      simp only [Option.some.injEq, Prod.mk.injEq] at h
      exact ⟨[], by simp [h.2.1.symm], by simp [h.2.2.symm]⟩
    · rw [if_neg hq] at h
      exact Option.noConfusion h
  | succ fuel ih =>
    intro visited queue eps order e2 o2 v2 h
    cases queue with
    | nil =>
      simp only [crawl_loop, Option.some.injEq, Prod.mk.injEq] at h
      exact ⟨[], by simp [h.2.1.symm], by simp [h.2.2.symm]⟩
    | cons url rest =>
      simp only [crawl_loop] at h
      by_cases hv : url ∈ visited
      · rw [if_pos hv] at h
        exact ih visited rest eps order e2 o2 v2 h
      · rw [if_neg hv] at h
        cases hw : web url with
        | none =>
          rw [hw] at h
          dsimp only at h
          obtain ⟨t, ht1, ht2⟩ :=
            ih (url :: visited) rest eps (order ++ [url]) e2 o2 v2 h
          exact ⟨url :: t, by simp [ht1], by simp [ht2]⟩
        | some pg =>
          rw [hw] at h
          dsimp only at h
          obtain ⟨t, ht1, ht2⟩ := ih (url :: visited)
            (enqueueLinks (url :: visited) rest
              (scrape_current_page σ pg base so).2)
            (eps ++ (scrape_current_page σ pg base so).1)
            (order ++ [url]) e2 o2 v2 h
          exact ⟨url :: t, by simp [ht1], by simp [ht2]⟩

lemma cl_queue_processed (σ : List String → List String) (web : Web)
    (base : String) (so : Bool) :
    ∀ (fuel : Nat) (visited queue : List String) (eps : List Endpoint)
      (order : List String) (e2 : List Endpoint) (o2 v2 : List String),
      crawl_loop σ web base so fuel visited queue eps order =
        some (e2, o2, v2) →
      ∀ x ∈ queue, x ∈ o2 ∨ x ∈ visited := by
  intro fuel
  induction fuel with
  | zero =>
    intro visited queue eps order e2 o2 v2 h x hx
    simp only [crawl_loop] at h
    by_cases hq : queue = []
    · subst hq; simp at hx
    · rw [if_neg hq] at h
      exact Option.noConfusion h
  | succ fuel ih =>
    intro visited queue eps order e2 o2 v2 h x hx
    cases queue with
    | nil => simp at hx
    | cons url rest =>
      simp only [crawl_loop] at h
      by_cases hv : url ∈ visited
      · rw [if_pos hv] at h
        rcases List.mem_cons.mp hx with rfl | hx
        · exact Or.inr hv
        · exact ih visited rest eps order e2 o2 v2 h x hx
      · rw [if_neg hv] at h
        cases hw : web url with
        | none =>
          rw [hw] at h
          dsimp only at h
          have hurl : url ∈ o2 := by
            obtain ⟨t, ht1, _⟩ :=
              cl_order_visited σ web base so fuel (url :: visited) rest eps
                (order ++ [url]) e2 o2 v2 h
            rw [ht1]
            exact List.mem_append_left t (by simp)
          rcases List.mem_cons.mp hx with rfl | hx
          · exact Or.inl hurl
          · rcases ih (url :: visited) rest eps (order ++ [url]) e2 o2 v2 h x hx
              with h2 | h2
            · exact Or.inl h2
            · rcases List.mem_cons.mp h2 with rfl | h2
              · exact Or.inl hurl
              · exact Or.inr h2
        | some pg =>
          rw [hw] at h
          dsimp only at h
          have hurl : url ∈ o2 := by
            obtain ⟨t, ht1, _⟩ := cl_order_visited σ web base so fuel
              (url :: visited)
              (enqueueLinks (url :: visited) rest
                (scrape_current_page σ pg base so).2)
              (eps ++ (scrape_current_page σ pg base so).1)
              (order ++ [url]) e2 o2 v2 h
            rw [ht1]
            exact List.mem_append_left t (by simp)
          rcases List.mem_cons.mp hx with rfl | hx
          · exact Or.inl hurl
          · have hxq : x ∈ enqueueLinks (url :: visited) rest
                (scrape_current_page σ pg base so).2 := by
              obtain ⟨t, ht⟩ := enqueue_extends (url :: visited) rest
                (scrape_current_page σ pg base so).2
              rw [ht]
              exact List.mem_append_left t hx
            rcases ih (url :: visited) _ _ (order ++ [url]) e2 o2 v2 h x hxq
              with h2 | h2
            · exact Or.inl h2
            · rcases List.mem_cons.mp h2 with rfl | h2
              · exact Or.inl hurl
              · exact Or.inr h2

lemma cl_invariants (σ : List String → List String) (web : Web)
    (base : String) (so : Bool) (d : String) :
    ∀ (fuel : Nat) (visited queue : List String) (eps : List Endpoint)
      (order : List String) (e2 : List Endpoint) (o2 v2 : List String),
      crawl_loop σ web base so fuel visited queue eps order =
        some (e2, o2, v2) →
      order.Nodup → (∀ o ∈ order, o ∈ visited) → d ∈ visited → d ∉ order →
      o2.Nodup ∧ d ∉ o2 := by
  intro fuel
  induction fuel with
  | zero =>
    intro visited queue eps order e2 o2 v2 h hnd hsub hd hdo
    simp only [crawl_loop] at h
    by_cases hq : queue = []
    · rw [if_pos hq] at h
      simp only [Option.some.injEq, Prod.mk.injEq] at h
      exact ⟨h.2.1 ▸ hnd, h.2.1 ▸ hdo⟩
    · rw [if_neg hq] at h
      exact Option.noConfusion h
  | succ fuel ih =>
    intro visited queue eps order e2 o2 v2 h hnd hsub hd hdo
    cases queue with
    | nil =>
      simp only [crawl_loop, Option.some.injEq, Prod.mk.injEq] at h
      exact ⟨h.2.1 ▸ hnd, h.2.1 ▸ hdo⟩
    | cons url rest =>
      simp only [crawl_loop] at h
      by_cases hv : url ∈ visited
      · rw [if_pos hv] at h
        exact ih visited rest eps order e2 o2 v2 h hnd hsub hd hdo
      · rw [if_neg hv] at h
        have hurlo : url ∉ order := fun hc => hv (hsub url hc)
        have hnd2 : (order ++ [url]).Nodup := by
          simp [List.nodup_append, hnd, hurlo]
        have hsub2 : ∀ o ∈ order ++ [url], o ∈ url :: visited := by
          intro o ho
          rcases List.mem_append.mp ho with ho | ho
          · exact List.mem_cons_of_mem url (hsub o ho)
          · have : o = url := by simpa using ho
            exact this ▸ List.mem_cons_self url visited
        have hd2 : d ∈ url :: visited := List.mem_cons_of_mem url hd
        have hdo2 : d ∉ order ++ [url] := by
          intro hc
          rcases List.mem_append.mp hc with hc | hc
          · exact hdo hc
          · have : d = url := by simpa using hc
            exact hv (this ▸ hd)
        cases hw : web url with
        | none =>
          rw [hw] at h
          dsimp only at h
          exact ih (url :: visited) rest eps (order ++ [url]) e2 o2 v2 h
            hnd2 hsub2 hd2 hdo2
        | some pg =>
          rw [hw] at h
          dsimp only at h
          exact ih (url :: visited) _ _ (order ++ [url]) e2 o2 v2 h
            hnd2 hsub2 hd2 hdo2

/-- During the crawl, every already-visited URL other than the dashboard
has had its harvested links put into `visited` or `queue`. -/
def LinksDone (σ : List String → List String) (web : Web) (base : String)
    (so : Bool) (d : String) (visited queue : List String) : Prop :=
  ∀ u ∈ visited, u ≠ d →
    ∀ l ∈ crawl_links_of σ web base so u, l ∈ visited ∨ l ∈ queue

lemma cl_closure (σ : List String → List String) (web : Web)
    (base : String) (so : Bool) (d : String) :
    ∀ (fuel : Nat) (visited queue : List String) (eps : List Endpoint)
      (order : List String) (e2 : List Endpoint) (o2 v2 : List String),
      crawl_loop σ web base so fuel visited queue eps order =
        some (e2, o2, v2) →
      LinksDone σ web base so d visited queue →
      ∀ u ∈ v2, u ≠ d → ∀ l ∈ crawl_links_of σ web base so u, l ∈ v2 := by
  intro fuel
  induction fuel with
  | zero =>
    intro visited queue eps order e2 o2 v2 h hld
    simp only [crawl_loop] at h
    by_cases hq : queue = []
    · rw [if_pos hq] at h
      simp only [Option.some.injEq, Prod.mk.injEq] at h
      subst hq
      intro u hu hne l hl
      rcases hld u (h.2.2 ▸ hu) hne l hl with h2 | h2
      · exact h.2.2 ▸ h2
      · simp at h2
    · rw [if_neg hq] at h
      exact Option.noConfusion h
  | succ fuel ih =>
    intro visited queue eps order e2 o2 v2 h hld
    cases queue with
    | nil =>
      simp only [crawl_loop, Option.some.injEq, Prod.mk.injEq] at h
      intro u hu hne l hl
      rcases hld u (h.2.2 ▸ hu) hne l hl with h2 | h2
      · exact h.2.2 ▸ h2
      · simp at h2
    | cons url rest =>
      simp only [crawl_loop] at h
      by_cases hv : url ∈ visited
      · rw [if_pos hv] at h
        apply ih visited rest eps order e2 o2 v2 h
        intro u hu hne l hl
        rcases hld u hu hne l hl with h2 | h2
        · exact Or.inl h2
        · rcases List.mem_cons.mp h2 with rfl | h2
          · exact Or.inl hv
          · exact Or.inr h2
      · rw [if_neg hv] at h
        cases hw : web url with
        | none =>
          rw [hw] at h
          dsimp only at h
          apply ih (url :: visited) rest eps (order ++ [url]) e2 o2 v2 h
          intro u hu hne l hl
          rcases List.mem_cons.mp hu with rfl | hu
          · exfalso
            have : crawl_links_of σ web base so u = [] := by
              unfold crawl_links_of
              rw [hw]
            rw [this] at hl
            simp at hl
          · rcases hld u hu hne l hl with h2 | h2
            · exact Or.inl (List.mem_cons_of_mem url h2)
            · rcases List.mem_cons.mp h2 with heq | h2
              · exact Or.inl (by rw [heq]; exact List.mem_cons_self url visited)
              · exact Or.inr h2
        | some pg =>
          rw [hw] at h
          dsimp only at h
          apply ih (url :: visited)
            (enqueueLinks (url :: visited) rest
              (scrape_current_page σ pg base so).2)
            (eps ++ (scrape_current_page σ pg base so).1)
            (order ++ [url]) e2 o2 v2 h
          intro u hu hne l hl
          rcases List.mem_cons.mp hu with rfl | hu
          · have hlinks : crawl_links_of σ web base so u =
                (scrape_current_page σ pg base so).2 := by
              unfold crawl_links_of
              rw [hw]
            rw [hlinks] at hl
            exact enqueue_mem_of_link (u :: visited) _ rest l hl
          · rcases hld u hu hne l hl with h2 | h2
            · exact Or.inl (List.mem_cons_of_mem url h2)
            · rcases List.mem_cons.mp h2 with heq | h2
              · exact Or.inl (by rw [heq]; exact List.mem_cons_self url visited)
              · right
                obtain ⟨t, ht⟩ := enqueue_extends (url :: visited) rest
                  (scrape_current_page σ pg base so).2
                rw [ht]
                exact List.mem_append_left t h2

lemma filter_len_mono {α : Type} (p q : α → Bool) (l : List α)
    (h : ∀ a ∈ l, p a = true → q a = true) :
    (l.filter p).length ≤ (l.filter q).length := by
  induction l with
  | nil => simp
  | cons x rest ih =>
    have ih2 := ih (fun a ha => h a (List.mem_cons_of_mem x ha))
    by_cases hp : p x = true
    · have hq := h x (List.mem_cons_self x rest) hp
      simp [List.filter, hp, hq]
      exact ih2
    · have hp2 : p x = false := bool_eq_false_of_ne hp
      by_cases hq : q x = true
      · simp [List.filter, hp2, hq]
        omega
      · simp [List.filter, hp2, bool_eq_false_of_ne hq]
        exact ih2

lemma filter_len_strict {α : Type} (p q : α → Bool) (l : List α) (a : α)
    (h : ∀ x ∈ l, p x = true → q x = true) (ha : a ∈ l)
    (hpa : p a = false) (hqa : q a = true) :
    (l.filter p).length + 1 ≤ (l.filter q).length := by
  induction l with
  | nil => simp at ha
  | cons x rest ih =>
    have hmono := filter_len_mono p q rest
      (fun y hy => h y (List.mem_cons_of_mem x hy))
    rcases List.mem_cons.mp ha with rfl | ha
    · simp [List.filter, hpa, hqa]
      omega
    · have ih2 := ih (fun y hy => h y (List.mem_cons_of_mem x hy)) ha
      by_cases hp : p x = true
      · have hq := h x (List.mem_cons_self x rest) hp
        simp [List.filter, hp, hq]
        omega
      · have hp2 : p x = false := bool_eq_false_of_ne hp
        by_cases hq : q x = true
        · simp [List.filter, hp2, hq]
          omega
        · simp [List.filter, hp2, bool_eq_false_of_ne hq]
          exact ih2

/-- Number of universe URLs not yet visited: the termination measure core. -/
def notVisited (U visited : List String) : Nat :=
  (U.filter (fun x => decide (x ∉ visited))).length

lemma notVisited_cons_le (U visited : List String) (a : String) :
    notVisited U (a :: visited) ≤ notVisited U visited := by
  apply filter_len_mono
  intro x _ hx
  simp only [decide_eq_true_eq] at hx ⊢
  exact fun hc => hx (List.mem_cons_of_mem a hc)

lemma notVisited_visit (U visited : List String) (a : String)
    (haU : a ∈ U) (hav : a ∉ visited) :
    notVisited U (a :: visited) + 1 ≤ notVisited U visited := by
  apply filter_len_strict _ _ _ a _ haU
  · simp
  · simpa using hav
  · intro x _ hx
    simp only [decide_eq_true_eq] at hx ⊢
    exact fun hc => hx (List.mem_cons_of_mem a hc)

/-- Bound on the number of crawl links any universe URL can contribute. -/
def maxLinks (σ : List String → List String) (web : Web) (base : String)
    (so : Bool) (U : List String) : Nat :=
  U.foldr (fun u m => max (crawl_links_of σ web base so u).length m) 0

lemma maxLinks_bound (σ : List String → List String) (web : Web)
    (base : String) (so : Bool) (U : List String) :
    ∀ u ∈ U, (crawl_links_of σ web base so u).length ≤
      maxLinks σ web base so U := by
  induction U with
  | nil => simp
  | cons x rest ih =>
    intro u hu
    rcases List.mem_cons.mp hu with rfl | hu
    · exact le_max_left _ _
    · exact le_trans (ih u hu) (le_max_right _ _)

lemma cl_terminates (σ : List String → List String) (web : Web)
    (base : String) (so : Bool) (U : List String)
    (hcl : ∀ u ∈ U, ∀ l ∈ crawl_links_of σ web base so u, l ∈ U) :
    ∀ (fuel : Nat) (visited queue : List String) (eps : List Endpoint)
      (order : List String),
      (∀ x ∈ queue, x ∈ U) →
      (1 + maxLinks σ web base so U) * notVisited U visited +
        queue.length ≤ fuel →
      ∃ r, crawl_loop σ web base so fuel visited queue eps order = some r := by
  intro fuel
  induction fuel with
  | zero =>
    intro visited queue eps order hq hfuel
    have hq0 : queue.length = 0 := by omega
    have hqe : queue = [] := List.length_eq_zero.mp hq0
    subst hqe
    exact ⟨(eps, order, visited), by simp [crawl_loop]⟩
  | succ fuel ih =>
    intro visited queue eps order hq hfuel
    cases queue with
    | nil => exact ⟨(eps, order, visited), by simp [crawl_loop]⟩
    | cons url rest =>
      have hqU : url ∈ U := hq url (List.mem_cons_self url rest)
      have hrestU : ∀ x ∈ rest, x ∈ U :=
        fun x hx => hq x (List.mem_cons_of_mem url hx)
      by_cases hv : url ∈ visited
      · obtain ⟨r, hr⟩ := ih visited rest eps order hrestU (by
          simp only [List.length_cons] at hfuel
          omega)
        exact ⟨r, by simp only [crawl_loop, if_pos hv]; exact hr⟩
      · have hdec := notVisited_visit U visited url hqU hv
        have hmul : (1 + maxLinks σ web base so U) *
            (notVisited U (url :: visited) + 1) ≤
            (1 + maxLinks σ web base so U) * notVisited U visited :=
          Nat.mul_le_mul_left _ hdec
        cases hw : web url with
        | none =>
          obtain ⟨r, hr⟩ := ih (url :: visited) rest eps (order ++ [url])
            hrestU (by
              have hx := Nat.mul_add (1 + maxLinks σ web base so U)
                (notVisited U (url :: visited)) 1
              simp only [List.length_cons] at hfuel
              omega)
          refine ⟨r, ?_⟩
          simp only [crawl_loop, if_neg hv]
          rw [hw]
          exact hr
        | some pg =>
          have hlinks : crawl_links_of σ web base so url =
              (scrape_current_page σ pg base so).2 := by
            unfold crawl_links_of
            rw [hw]
          have hlinksU : ∀ x ∈ (scrape_current_page σ pg base so).2, x ∈ U :=
            fun x hx => hcl url hqU x (hlinks ▸ hx)
          have hqU2 : ∀ x ∈ enqueueLinks (url :: visited) rest
              (scrape_current_page σ pg base so).2, x ∈ U := by
            intro x hx
            rcases enqueue_sub (url :: visited) rest _ x hx with hx | hx
            · exact hrestU x hx
            · exact hlinksU x hx.2
          have hlen := enqueue_len (url :: visited)
            (scrape_current_page σ pg base so).2 rest
          have hB : (scrape_current_page σ pg base so).2.length ≤
              maxLinks σ web base so U :=
            hlinks ▸ maxLinks_bound σ web base so U url hqU
          obtain ⟨r, hr⟩ := ih (url :: visited)
            (enqueueLinks (url :: visited) rest
              (scrape_current_page σ pg base so).2)
            (eps ++ (scrape_current_page σ pg base so).1)
            (order ++ [url]) hqU2 (by
              have hx := Nat.mul_add (1 + maxLinks σ web base so U)
                (notVisited U (url :: visited)) 1
              simp only [List.length_cons] at hfuel
              omega)
          refine ⟨r, ?_⟩
          simp only [crawl_loop, if_neg hv]
          rw [hw]
          exact hr

lemma run_crawl_terminates (σ : List String → List String) (web : Web)
    (base : String) (so : Bool) (d : String) (seeds U : List String)
    (hseeds : ∀ s ∈ seeds, s ∈ U)
    (hcl : ∀ u ∈ U, ∀ l ∈ crawl_links_of σ web base so u, l ∈ U) :
    ∃ fuel r, run_crawl σ web base so d seeds fuel = some r := by
  refine ⟨(1 + maxLinks σ web base so U) * notVisited U [d] +
    (seeds.filter (fun l => decide (l ∉ [d]))).length, ?_⟩
  exact cl_terminates σ web base so U hcl _ [d]
    (seeds.filter (fun l => decide (l ∉ [d]))) [] []
    (fun x hx => hseeds x (List.mem_filter.mp hx).1) (le_refl _)

lemma run_crawl_complete (σ : List String → List String) (web : Web)
    (base : String) (so : Bool) (d : String) (seeds : List String)
    (fuel : Nat) (e2 : List Endpoint) (o2 v2 : List String)
    (h : run_crawl σ web base so d seeds fuel = some (e2, o2, v2)) :
    ∀ u, Reaches σ web base so d seeds u → u ∈ o2 ∨ u = d := by
  obtain ⟨t, ht1, ht2⟩ := cl_order_visited σ web base so fuel [d]
    (seeds.filter (fun l => decide (l ∉ [d]))) [] [] e2 o2 v2 h
  have hv2 : v2 = o2.reverse ++ [d] := by
    rw [ht2, ht1]
    simp
  have hclo := cl_closure σ web base so d fuel [d]
    (seeds.filter (fun l => decide (l ∉ [d]))) [] [] e2 o2 v2 h
    (by intro u hu hne l hl; exact absurd (by simpa using hu) hne)
  have hqp := cl_queue_processed σ web base so fuel [d]
    (seeds.filter (fun l => decide (l ∉ [d]))) [] [] e2 o2 v2 h
  intro u hr
  induction hr with
  | seed s hs =>
    by_cases hsd : s = d
    · exact Or.inr hsd
    · have hsq : s ∈ seeds.filter (fun l => decide (l ∉ [d])) :=
        List.mem_filter.mpr ⟨hs, by simp [hsd]⟩
      rcases hqp s hsq with h2 | h2
      · exact Or.inl h2
      · exact Or.inr (by simpa using h2)
  | step u2 l hu2 hne hl ih =>
    rcases ih with hin | hud
    · have huv : u2 ∈ v2 := by
        rw [hv2]
        exact List.mem_append_left _ (List.mem_reverse.mpr hin)
      have hlv := hclo u2 huv hne l hl
      rw [hv2] at hlv
      rcases List.mem_append.mp hlv with h2 | h2
      · exact Or.inl (List.mem_reverse.mp h2)
      · exact Or.inr (by simpa using h2)
    · exact absurd hud hne

/-- Claim C4: for a finite same-origin anchor graph (a closed finite
universe `U` containing the seeds and all harvested links), the crawl
loop terminates (some fuel makes it return); on every successful run the
visit order has no duplicates (each URL dequeued-and-visited at most
once), the seeded dashboard URL is never visited, the visited set is
exactly the dashboard plus the visited URLs (so it only grows, one URL
per visit), and every URL reachable from the seed links is visited (or
is the dashboard itself) — each reachable URL exactly once.  A URL is
appended to the queue only if it is neither visited nor already queued,
and queue appending preserves duplicate-freeness. -/
theorem c4_crawl_frontier (σ : List String → List String) (web : Web)
    (base : String) (so : Bool) (d : String) (seeds U : List String)
    (hseeds : ∀ s ∈ seeds, s ∈ U)
    (hcl : ∀ u ∈ U, ∀ l ∈ crawl_links_of σ web base so u, l ∈ U) :
    (∃ fuel r, run_crawl σ web base so d seeds fuel = some r) ∧
    (∀ fuel e2 o2 v2,
      run_crawl σ web base so d seeds fuel = some (e2, o2, v2) →
      o2.Nodup ∧ d ∉ o2 ∧ v2 = o2.reverse ++ [d] ∧
      ∀ u, Reaches σ web base so d seeds u → u ∈ o2 ∨ u = d) ∧
    (∀ visited queue links l, l ∈ enqueueLinks visited queue links →
      l ∈ queue ∨ (l ∉ visited ∧ l ∈ links)) ∧
    (∀ visited queue links, queue.Nodup →
      (enqueueLinks visited queue links).Nodup) := by
  refine ⟨run_crawl_terminates σ web base so d seeds U hseeds hcl, ?_, ?_, ?_⟩
  · intro fuel e2 o2 v2 h
    obtain ⟨hnd, hdo⟩ := cl_invariants σ web base so d fuel [d]
      (seeds.filter (fun l => decide (l ∉ [d]))) [] [] e2 o2 v2 h
      List.nodup_nil (by simp) (List.mem_cons_self d []) (by simp)
    obtain ⟨t, ht1, ht2⟩ := cl_order_visited σ web base so fuel [d]
      (seeds.filter (fun l => decide (l ∉ [d]))) [] [] e2 o2 v2 h
    refine ⟨hnd, hdo, ?_, run_crawl_complete σ web base so d seeds fuel e2 o2 v2 h⟩
    rw [ht2, ht1]
    simp
  · exact fun visited queue links l hl => enqueue_sub visited queue links l hl
  · exact fun visited queue links hnd => enqueue_nodup visited queue links hnd

/-- A web where every navigation fails (used as a concrete instance). -/
def webNone : Web := fun _ => none

/-- Witness for C4 at a one-seed universe over a web with no pages. -/
theorem c4_crawl_frontier_witness :
    (∃ fuel r, run_crawl insertionOrder webNone "https://e.com" true
      "https://e.com/" ["https://e.com/a"] fuel = some r) ∧
    (∀ fuel e2 o2 v2,
      run_crawl insertionOrder webNone "https://e.com" true
        "https://e.com/" ["https://e.com/a"] fuel = some (e2, o2, v2) →
      o2.Nodup ∧ "https://e.com/" ∉ o2 ∧ v2 = o2.reverse ++ ["https://e.com/"] ∧
      ∀ u, Reaches insertionOrder webNone "https://e.com" true
        "https://e.com/" ["https://e.com/a"] u →
        u ∈ o2 ∨ u = "https://e.com/") ∧
    (∀ visited queue links l, l ∈ enqueueLinks visited queue links →
      l ∈ queue ∨ (l ∉ visited ∧ l ∈ links)) ∧
    (∀ visited queue links, queue.Nodup →
      (enqueueLinks visited queue links).Nodup) :=
  c4_crawl_frontier insertionOrder webNone "https://e.com" true
    "https://e.com/" ["https://e.com/a"] ["https://e.com/a"]
    (by decide)
    (by intro u hu l hl; simp [crawl_links_of, webNone] at hl)

/-! ## The FIFO crawl scenario (claim C5)

Seed page links to `/a` and `/b` in that DOM order; `/a` links to `/b`
and `/c`.  The queue itself is strictly FIFO, but the seed and per-page
link lists pass through a Python set (`crawl_links` in
`collect_dom_links`), whose iteration order is unspecified — so the
visit order depends on the set listing `σ`. -/

def c5Base : String := "https://app.example.com"
def c5D : String := "https://app.example.com/home"
def c5A : String := "https://app.example.com/a"
def c5B : String := "https://app.example.com/b"
def c5C : String := "https://app.example.com/c"

def c5DashDom : List DomElem := [⟨"a", [("href", "/a")]⟩, ⟨"a", [("href", "/b")]⟩]
def c5ADom : List DomElem := [⟨"a", [("href", "/b")]⟩, ⟨"a", [("href", "/c")]⟩]

def c5Dash : PageModel := ⟨c5D, c5DashDom, c5DashDom⟩
def c5PageA : PageModel := ⟨c5A, c5ADom, c5ADom⟩
def c5PageB : PageModel := ⟨c5B, [], []⟩
def c5PageC : PageModel := ⟨c5C, [], []⟩

def c5Web : Web := fun u =>
  if u = c5A then some c5PageA
  else if u = c5B then some c5PageB
  else if u = c5C then some c5PageC
  else none

/-- The dashboard seed links, as harvested by `scrape_current_page`. -/
def c5Seeds (σ : List String → List String) : List String :=
  (scrape_current_page σ c5Dash c5Base true).2

/-- The insertion-ordered contents of the dashboard crawl-link set. -/
def c5SeedContents : List String := [c5A, c5B]

/-- The insertion-ordered contents of page `/a`'s crawl-link set. -/
def c5AContents : List String := [c5B, c5C]

lemma fold_union_subset (l2 acc : List String) (h : ∀ x ∈ l2, x ∈ acc) :
    l2.foldl (fun acc l => if l ∈ acc then acc else acc ++ [l]) acc = acc := by
  induction l2 generalizing acc with
  | nil => rfl
  | cons x rest ih =>
    have hx : x ∈ acc := h x (List.mem_cons_self x rest)
    simp only [List.foldl_cons, if_pos hx]
    exact ih acc (fun y hy => h y (List.mem_cons_of_mem x hy))

lemma cl_order_universe (σ : List String → List String) (web : Web)
    (base : String) (so : Bool) (U : List String)
    (hcl : ∀ u ∈ U, ∀ l ∈ crawl_links_of σ web base so u, l ∈ U) :
    ∀ (fuel : Nat) (visited queue : List String) (eps : List Endpoint)
      (order : List String) (e2 : List Endpoint) (o2 v2 : List String),
      crawl_loop σ web base so fuel visited queue eps order =
        some (e2, o2, v2) →
      (∀ x ∈ queue, x ∈ U) → (∀ x ∈ order, x ∈ U) →
      ∀ x ∈ o2, x ∈ U := by
  intro fuel
  induction fuel with
  | zero =>
    intro visited queue eps order e2 o2 v2 h hq ho x hx
    simp only [crawl_loop] at h
    by_cases hqe : queue = []
    · rw [if_pos hqe] at h
      simp only [Option.some.injEq, Prod.mk.injEq] at h
      exact ho x (h.2.1 ▸ hx)
    · rw [if_neg hqe] at h
      exact Option.noConfusion h
  | succ fuel ih =>
    intro visited queue eps order e2 o2 v2 h hq ho x hx
    cases queue with
    | nil =>
      simp only [crawl_loop, Option.some.injEq, Prod.mk.injEq] at h
      exact ho x (h.2.1 ▸ hx)
    | cons url rest =>
      have hqU : url ∈ U := hq url (List.mem_cons_self url rest)
      have hrestU : ∀ y ∈ rest, y ∈ U :=
        fun y hy => hq y (List.mem_cons_of_mem url hy)
      have hordU : ∀ y ∈ order ++ [url], y ∈ U := by
        intro y hy
        rcases List.mem_append.mp hy with hy | hy
        · exact ho y hy
        · exact (by simpa using hy : y = url) ▸ hqU
      simp only [crawl_loop] at h
      by_cases hv : url ∈ visited
      · rw [if_pos hv] at h
        exact ih visited rest eps order e2 o2 v2 h hrestU ho x hx
      · rw [if_neg hv] at h
        cases hw : web url with
        | none =>
          rw [hw] at h
          dsimp only at h
          exact ih (url :: visited) rest eps (order ++ [url]) e2 o2 v2 h
            hrestU hordU x hx
        | some pg =>
          rw [hw] at h
          dsimp only at h
          have hlinks : crawl_links_of σ web base so url =
              (scrape_current_page σ pg base so).2 := by
            unfold crawl_links_of
            rw [hw]
          have hqU2 : ∀ y ∈ enqueueLinks (url :: visited) rest
              (scrape_current_page σ pg base so).2, y ∈ U := by
            intro y hy
            rcases enqueue_sub (url :: visited) rest _ y hy with hy | hy
            · exact hrestU y hy
            · exact hcl url hqU y (hlinks ▸ hy.2)
          exact ih (url :: visited) _ _ (order ++ [url]) e2 o2 v2 h
            hqU2 hordU x hx

/-- Claim C5 counterexample: with a reversed (but legitimate, see the
amended theorem) set-iteration order, the crawl of the scenario visits
`/b`, `/a`, `/c` — not the claimed `/a`, `/b`, `/c`. -/
theorem c5_counterexample :
    (run_crawl reversedOrder c5Web c5Base true c5D
        (c5Seeds reversedOrder) 12).map (fun r => r.2.1) =
      some ["https://app.example.com/b", "https://app.example.com/a",
        "https://app.example.com/c"] ∧
    (run_crawl reversedOrder c5Web c5Base true c5D
        (c5Seeds reversedOrder) 12).map (fun r => r.2.1) ≠
      some ["https://app.example.com/a", "https://app.example.com/b",
        "https://app.example.com/c"] := by
  constructor
  · rfl
  · decide

/-- Claim C5 (amended): the frontier queue itself is strictly FIFO, and in
the scenario the crawl visits exactly the pages `/a`, `/b`, `/c`, each
exactly once (for every legitimate set-iteration order the visit order
is duplicate-free and a permutation of the three URLs, with `/b` visited
once even though it is reachable from both the seed page and `/a`); but
the harvested links pass through a Python set whose iteration order is
unspecified, so the relative order is not guaranteed: with
insertion-order iteration the visit order is `/a`, `/b`, `/c`, while a
reversed iteration order is equally legitimate and yields `/b`, `/a`,
`/c`. -/
theorem c5_crawl_fifo :
    (∀ σ, SetListing σ →
      ∃ fuel e2 o2 v2,
        run_crawl σ c5Web c5Base true c5D (c5Seeds σ) fuel =
          some (e2, o2, v2) ∧
        o2.Nodup ∧ o2.Perm [c5A, c5B, c5C]) ∧
    SetListing reversedOrder ∧
    (run_crawl insertionOrder c5Web c5Base true c5D
      (c5Seeds insertionOrder) 12).map (fun r => r.2.1) =
      some [c5A, c5B, c5C] := by
  refine ⟨?_, reversedOrder_setListing, by rfl⟩
  intro σ hσ
  have hseedsEq : c5Seeds σ = σ c5SeedContents := by
    have h0 : c5Seeds σ = (σ c5SeedContents).foldl
        (fun acc l => if l ∈ acc then acc else acc ++ [l])
        (σ c5SeedContents) := rfl
    rw [h0]
    exact fold_union_subset _ _ (fun x hx => hx)
  have hlinksA : crawl_links_of σ c5Web c5Base true c5A = σ c5AContents := by
    have h0 : crawl_links_of σ c5Web c5Base true c5A =
        (σ c5AContents).foldl
          (fun acc l => if l ∈ acc then acc else acc ++ [l])
          (σ c5AContents) := rfl
    rw [h0]
    exact fold_union_subset _ _ (fun x hx => hx)
  have hE : σ [] = [] := List.Perm.eq_nil (hσ [])
  have hlinksB : crawl_links_of σ c5Web c5Base true c5B = [] := by
    have h0 : crawl_links_of σ c5Web c5Base true c5B =
        (σ []).foldl (fun acc l => if l ∈ acc then acc else acc ++ [l])
          (σ []) := rfl
    rw [h0, hE]
    rfl
  have hlinksC : crawl_links_of σ c5Web c5Base true c5C = [] := by
    have h0 : crawl_links_of σ c5Web c5Base true c5C =
        (σ []).foldl (fun acc l => if l ∈ acc then acc else acc ++ [l])
          (σ []) := rfl
    rw [h0, hE]
    rfl
  have hpermD : (σ c5SeedContents).Perm [c5A, c5B] := by
    have h := hσ c5SeedContents
    rwa [show c5SeedContents.dedup = [c5A, c5B] from by decide] at h
  have hpermA : (σ c5AContents).Perm [c5B, c5C] := by
    have h := hσ c5AContents
    rwa [show c5AContents.dedup = [c5B, c5C] from by decide] at h
  have hseedsU : ∀ s ∈ c5Seeds σ, s ∈ [c5A, c5B, c5C] := by
    intro s hs
    rw [hseedsEq] at hs
    have h2 := hpermD.mem_iff.mp hs
    simp only [List.mem_cons, List.not_mem_nil, or_false] at h2 ⊢
    tauto
  have hclosed : ∀ u ∈ [c5A, c5B, c5C],
      ∀ l ∈ crawl_links_of σ c5Web c5Base true u, l ∈ [c5A, c5B, c5C] := by
    intro u hu l hl
    simp only [List.mem_cons, List.not_mem_nil, or_false] at hu
    rcases hu with rfl | rfl | rfl
    · rw [hlinksA] at hl
      have h2 := hpermA.mem_iff.mp hl
      simp only [List.mem_cons, List.not_mem_nil, or_false] at h2 ⊢
      tauto
    · rw [hlinksB] at hl
      simp at hl
    · rw [hlinksC] at hl
      simp at hl
  obtain ⟨fuel, ⟨e2, o2, v2⟩, hr⟩ := run_crawl_terminates σ c5Web c5Base true
    c5D (c5Seeds σ) [c5A, c5B, c5C] hseedsU hclosed
  have hnd := cl_invariants σ c5Web c5Base true c5D fuel [c5D]
    ((c5Seeds σ).filter (fun l => decide (l ∉ [c5D]))) [] [] e2 o2 v2 hr
    List.nodup_nil (by simp) (List.mem_cons_self c5D []) (by simp)
  have hsub1 : ∀ x ∈ o2, x ∈ [c5A, c5B, c5C] :=
    cl_order_universe σ c5Web c5Base true [c5A, c5B, c5C] hclosed fuel [c5D]
      ((c5Seeds σ).filter (fun l => decide (l ∉ [c5D]))) [] [] e2 o2 v2 hr
      (fun x hx => hseedsU x (List.mem_filter.mp hx).1) (by simp)
  have hrA : Reaches σ c5Web c5Base true c5D (c5Seeds σ) c5A :=
    Reaches.seed c5A (by rw [hseedsEq]; exact hpermD.mem_iff.mpr (by simp))
  have hrB : Reaches σ c5Web c5Base true c5D (c5Seeds σ) c5B :=
    Reaches.seed c5B (by rw [hseedsEq]; exact hpermD.mem_iff.mpr (by simp))
  have hrC : Reaches σ c5Web c5Base true c5D (c5Seeds σ) c5C :=
    Reaches.step c5A c5C hrA (by decide)
      (by rw [hlinksA]; exact hpermA.mem_iff.mpr (by simp))
  have hco := run_crawl_complete σ c5Web c5Base true c5D (c5Seeds σ)
    fuel e2 o2 v2 hr
  have hsub2 : ∀ x ∈ [c5A, c5B, c5C], x ∈ o2 := by
    intro x hx
    simp only [List.mem_cons, List.not_mem_nil, or_false] at hx
    rcases hx with rfl | rfl | rfl
    · rcases hco c5A hrA with h | h
      · exact h
      · exact absurd h (by decide)
    · rcases hco c5B hrB with h | h
      · exact h
      · exact absurd h (by decide)
    · rcases hco c5C hrC with h | h
      · exact h
      · exact absurd h (by decide)
  refine ⟨fuel, e2, o2, v2, hr, hnd.1, ?_⟩
  rw [List.perm_ext_iff_of_nodup hnd.1 (by decide)]
  intro a
  exact ⟨hsub1 a, hsub2 a⟩

/-- Witness for the amended C5 at the insertion-order listing. -/
theorem c5_crawl_fifo_witness :
    ∃ fuel e2 o2 v2,
      run_crawl insertionOrder c5Web c5Base true c5D
        (c5Seeds insertionOrder) fuel = some (e2, o2, v2) ∧
      o2.Nodup ∧ o2.Perm [c5A, c5B, c5C] :=
  c5_crawl_fifo.1 insertionOrder insertionOrder_setListing
